import Mathlib

/-!
Verification development for the `sacredex` repository.

The repository is a thin convenience layer around the `sacred` experiment
tracker.  We give a shallow embedding of its combinatorial core and of the
control flow of its run driver, artifact resolver and dataframe aggregator:

* `sacredex/utils.py` — `nested_parameter_grid` (grid expansion of one-level
  nested parameter dictionaries via sklearn's `ParameterGrid`);
* `sacredex/run.py` — `run_over_configurations` (error counting loop),
  `_check_if_run` (duplicate-run guard phrased as a MongoDB query) and
  `purge_incomplete_runs`;
* `sacredex/artifacts.py` — `_load_artifact` / `resolve_artifacts`;
* `sacredex/parse.py` — `average_metrics_over_seed`.

Python strings are embedded as `List Char` (named `Str` below) so that all
string operations used by the code (substring test for `"__"`, `str.split`
on `"__"`, concatenation) are structurally recursive and kernel-computable.
Python dicts are embedded as association lists in insertion order, with
Python's `d[k] = v` update semantics (overwrite in place, else append).
-/

namespace Sacredex

/-- Embedded Python string: a list of characters. -/
abbrev Str := List Char

/-- Auxiliary scanner for `splitDunder`: leftmost, non-overlapping split on
the two-character separator `__`, accumulating the current token reversed. -/
def splitDunderAux (cur : Str) : Str → List Str
  | [] => [cur.reverse]
  | '_' :: '_' :: rest => cur.reverse :: splitDunderAux [] rest
  | c :: rest => splitDunderAux (c :: cur) rest

/-- Embedding of Python `s.split("__")`: split on every leftmost,
non-overlapping occurrence of `__`. -/
def splitDunder (s : Str) : List Str := splitDunderAux [] s

/-- Embedding of Python `"__" in s`: the split has more than one part
exactly when the separator occurs in `s`. -/
def hasDunder (s : Str) : Bool := (splitDunder s).length != 1

/-- Lexicographic comparison of embedded strings, as Python `<=` on `str`
(used by sklearn's `ParameterGrid`, which sorts the dict items). -/
def strLE : Str → Str → Bool
  | [], _ => true
  | _ :: _, [] => false
  | a :: as, b :: bs => if a < b then true else if a = b then strLE as bs else false

/-- First-match lookup in an association list, as Python `d[k]` /
`d.get(k)` on a dict embedded in insertion order. -/
def lookupA {β : Type} (k : Str) : List (Str × β) → Option β
  | [] => none
  | (k', v) :: rest => if k' = k then some v else lookupA k rest

/-- Python dict assignment `d[k] = v`: overwrite the value in place if the
key is present, otherwise append the binding at the end. -/
def insertD {β : Type} (d : List (Str × β)) (k : Str) (v : β) : List (Str × β) :=
  match d with
  | [] => [(k, v)]
  | (k', v') :: rest => if k' = k then (k, v) :: rest else (k', v') :: insertD rest k v

/-- Fallible `mapM` over `Except`, as a Python loop that may raise:
the first raised exception aborts the whole loop. -/
def exMapM {α β ε : Type} (f : α → Except ε β) : List α → Except ε (List β)
  | [] => .ok []
  | a :: as =>
    match f a with
    | .ok b =>
      match exMapM f as with
      | .ok bs => .ok (b :: bs)
      | .error e => .error e
    | .error e => .error e

/-- Fallible left fold over `Except`, as a Python loop that may raise. -/
def exFoldl {σ α ε : Type} (f : σ → α → Except ε σ) (init : σ) : List α → Except ε σ
  | [] => .ok init
  | a :: as =>
    match f init a with
    | .ok s => exFoldl f s as
    | .error e => .error e

instance {ε α : Type} [DecidableEq ε] [DecidableEq α] : DecidableEq (Except ε α)
  | .ok a, .ok b =>
    if h : a = b then isTrue (by rw [h]) else isFalse (by intro hc; cases hc; exact h rfl)
  | .error e, .error e' =>
    if h : e = e' then isTrue (by rw [h]) else isFalse (by intro hc; cases hc; exact h rfl)
  | .ok _, .error _ => isFalse (by intro h; cases h)
  | .error _, .ok _ => isFalse (by intro h; cases h)

/-! ## `sacredex/utils.py` — `nested_parameter_grid`

A parameter description maps top-level keys either to a list of candidate
values or to one further dictionary of inner keys to candidate lists
(`PEntry`).  A concrete configuration produced by the expansion maps each
top-level key to a single value or to a dictionary of single values
(`CItem`). -/

/-- A value of the input parameter dictionary: either a list of candidate
values, or a nested dictionary (whose own values may, at the type level,
again be nested — the code rejects that case with `DepthError`). -/
inductive PEntry (α : Type) : Type
  | vals (vs : List α)
  | nest (inner : List (Str × PEntry α))

/-- Whether this entry is a nested dictionary (`isinstance(value, dict)`). -/
def PEntry.isNest {α : Type} : PEntry α → Bool
  | .vals _ => false
  | .nest _ => true

/-- Candidate list of a non-dict entry (`[]` on the `nest` constructor,
which every use below excludes beforehand). -/
def PEntry.getVals {α : Type} : PEntry α → List α
  | .vals vs => vs
  | .nest _ => []

/-- One entry of a concrete configuration: a single value, or a nested
dictionary of single values. -/
inductive CItem (α : Type) : Type
  | scalar (a : α)
  | nest (m : List (Str × α))
  deriving DecidableEq

/-- A concrete configuration: an embedded Python dict. -/
abbrev Cfg (α : Type) := List (Str × CItem α)

/-- Errors raised by `nested_parameter_grid`: the reserved-separator
`assert`, the explicit `DepthError`, the `ValueError` from unpacking
`key.split("__")` into two variables, and the `KeyError`/`TypeError` that
Python would raise on `remapped_params[outer_key][inner_key] = value`. -/
inductive GridErr : Type
  | assertSep | depth | unpack | keyErr | typeErr
  deriving DecidableEq

/-- Inner loop of the flattening step: for one top-level key `k` whose
value is a dict, insert `k + "__" + inner_key ↦ inner_value` for each inner
item into the accumulated `new_parameter_dict`, raising `DepthError` when
an inner value is itself a dict. -/
def flattenInner {α : Type} (k : Str) :
    List (Str × List α) → List (Str × PEntry α) → Except GridErr (List (Str × List α))
  | acc, [] => .ok acc
  | _, (_, .nest _) :: _ => .error .depth
  | acc, (ik, .vals vs) :: rest => flattenInner k (insertD acc (k ++ ['_', '_'] ++ ik) vs) rest

/-- Outer loop of the flattening step over the items of `parameter_dict`,
accumulating `new_parameter_dict` and `dunder_keys`. -/
def flattenLoop {α : Type} :
    List (Str × List α) → List Str → List (Str × PEntry α) →
    Except GridErr (List (Str × List α) × List Str)
  | acc, dks, [] => .ok (acc, dks)
  | acc, dks, (k, .vals vs) :: rest => flattenLoop (insertD acc k vs) dks rest
  | acc, dks, (k, .nest inner) :: rest =>
    match flattenInner k acc inner with
    | .ok acc' => flattenLoop acc' (dks ++ [k]) rest
    | .error e => .error e

/-- The full Cartesian product of sklearn's `ParameterGrid` over an already
key-sorted list of `(key, candidate list)` pairs: `itertools.product` with
the first key as the outermost loop. -/
def gridProduct {α : Type} : List (Str × List α) → List (List (Str × α))
  | [] => [[]]
  | (k, vs) :: rest => vs.flatMap (fun v => (gridProduct rest).map (fun p => (k, v) :: p))

/-- Embedding of `list(ParameterGrid(d))`: sort the dict items by key, then
take the full Cartesian product. -/
def parameterGrid {α : Type} (d : List (Str × List α)) : List (List (Str × α)) :=
  gridProduct (List.insertionSort (fun x y => strLE x.1 y.1 = true) d)

/-- One step of the un-flattening loop: route a flattened `key ↦ value`
pair back into `remapped_params`, splitting keys that contain `__` into
`outer_key, inner_key` (a split into more than two parts raises
`ValueError`; a missing or non-dict outer slot would raise `KeyError` /
`TypeError` in Python). -/
def unflatStep {α : Type} (acc : Cfg α) (kv : Str × α) : Except GridErr (Cfg α) :=
  match splitDunder kv.1 with
  | [o, i] =>
    match lookupA o acc with
    | some (.nest m) => .ok (insertD acc o (.nest (insertD m i kv.2)))
    | some (.scalar _) => .error .typeErr
    | none => .error .keyErr
  | [_] => .ok (insertD acc kv.1 (.scalar kv.2))
  | _ => .error .unpack

/-- Un-flatten one product element: initialise `remapped_params` with an
empty dict for every dunder key, then route every flattened pair. -/
def unflattenOne {α : Type} (dks : List Str) (p : List (Str × α)) : Except GridErr (Cfg α) :=
  exFoldl unflatStep (dks.map (fun k => (k, CItem.nest []))) p

/-- Embedding of `sacredex.utils.nested_parameter_grid`.  When some value
is a dict: assert that no top-level key contains `__`, flatten, run
`ParameterGrid`, and un-flatten every product element.  Otherwise run
`ParameterGrid` directly. -/
def nested_parameter_grid {α : Type} (parameter_dict : List (Str × PEntry α)) :
    Except GridErr (List (Cfg α)) :=
  if parameter_dict.any (fun kv => kv.2.isNest) then
    if parameter_dict.any (fun kv => hasDunder kv.1) then .error .assertSep
    else
      match flattenLoop [] [] parameter_dict with
      | .ok (nd, dks) => exMapM (unflattenOne dks) (parameterGrid nd)
      | .error e => .error e
  else
    .ok ((parameterGrid (parameter_dict.map (fun kv => (kv.1, kv.2.getVals)))).map
      (fun p => p.map (fun kv => (kv.1, CItem.scalar kv.2))))

/-- The flattened key `key + "__" + inner_key`. -/
def flatKey (k ik : Str) : Str := k ++ ['_', '_'] ++ ik

/-- The flattened parameter dictionary as an append-structured list (equal
to the dict built by the flattening loop when no flattened keys collide). -/
def flatList {α : Type} (d : List (Str × PEntry α)) : List (Str × List α) :=
  d.flatMap fun kv =>
    match kv.2 with
    | .vals vs => [(kv.1, vs)]
    | .nest inner => inner.map (fun ikv => (flatKey kv.1 ikv.1, ikv.2.getVals))

/-- All flattened keys of a parameter dictionary. -/
def flatKeys {α : Type} (d : List (Str × PEntry α)) : List Str := (flatList d).map Prod.fst

/-- The `dunder_keys` recorded by the flattening loop: top-level keys whose
value is a dict, in insertion order. -/
def dunderKeys {α : Type} (d : List (Str × PEntry α)) : List Str :=
  (d.filter (fun kv => kv.2.isNest)).map Prod.fst

/-- Whether an entry nests deeper than one level (an inner value that is
itself a dict — the `DepthError` condition). -/
def deepB {α : Type} : PEntry α → Bool
  | .vals _ => false
  | .nest inner => inner.any (fun ikv => ikv.2.isNest)

/-- Well-formedness of a parameter dictionary for the nested branch: keys
are distinct at every level, nesting is at most one level deep, no key
contains the separator, splitting a flattened key recovers exactly its two
components (so distinct flattened keys never collide after splitting), the
flattened keys are pairwise distinct, and every candidate list is
duplicate-free. -/
def wfB {α : Type} [DecidableEq α] (d : List (Str × PEntry α)) : Bool :=
  decide ((d.map Prod.fst).Nodup) &&
  d.all (fun kv => decide (splitDunder kv.1 = [kv.1])) &&
  decide ((flatKeys d).Nodup) &&
  d.all (fun kv =>
    match kv.2 with
    | .vals vs => decide vs.Nodup
    | .nest inner =>
      decide ((inner.map Prod.fst).Nodup) &&
      inner.all (fun ikv =>
        !ikv.2.isNest &&
        decide (splitDunder (flatKey kv.1 ikv.1) = [kv.1, ikv.1]) &&
        decide ikv.2.getVals.Nodup))

/-- Predicate `selInnerB inner m`: the inner dict `m` picks, in order,
exactly one candidate value for every inner key of `inner`. -/
def selInnerB {α : Type} [DecidableEq α] : List (Str × PEntry α) → List (Str × α) → Bool
  | [], [] => true
  | (ik, .vals vs) :: rest, (ik', v) :: ms =>
    decide (ik' = ik) && decide (v ∈ vs) && selInnerB rest ms
  | _, _ => false

/-- Predicate `selB d c`: the concrete configuration `c` is one combination
of the candidates described by `d` — same keys in the same nesting shape,
every scalar slot holding one value from its candidate list. -/
def selB {α : Type} [DecidableEq α] : List (Str × PEntry α) → Cfg α → Bool
  | [], [] => true
  | (k, .vals vs) :: rest, (k', .scalar v) :: cs =>
    decide (k' = k) && decide (v ∈ vs) && selB rest cs
  | (k, .nest inner) :: rest, (k', .nest m) :: cs =>
    decide (k' = k) && selInnerB inner m && selB rest cs
  | _, _ => false

/-- Python `==` on embedded inner dicts (key order irrelevant). -/
def innerEq {α : Type} [DecidableEq α] (m₁ m₂ : List (Str × α)) : Bool :=
  m₁.all (fun kv => decide (lookupA kv.1 m₂ = some kv.2)) &&
  m₂.all (fun kv => decide (lookupA kv.1 m₁ = some kv.2))

/-- Python `==` on configuration entries. -/
def itemEq {α : Type} [DecidableEq α] : CItem α → CItem α → Bool
  | .scalar a, .scalar b => decide (a = b)
  | .nest m₁, .nest m₂ => innerEq m₁ m₂
  | _, _ => false

/-- Python `==` on embedded configuration dicts (key order irrelevant,
values compared recursively). -/
def dictEq {α : Type} [DecidableEq α] (c₁ c₂ : Cfg α) : Bool :=
  (c₁.all fun kv =>
    match lookupA kv.1 c₂ with
    | some it => itemEq kv.2 it
    | none => false) &&
  (c₂.all fun kv =>
    match lookupA kv.1 c₁ with
    | some it => itemEq kv.2 it
    | none => false)

/-! ### Splitting and joining on the separator -/

/-- Joining a token list with `__`, the inverse of `splitDunder`. -/
def joinDunder : List Str → Str
  | [] => []
  | [t] => t
  | t :: rest => t ++ ['_', '_'] ++ joinDunder rest

theorem splitDunderAux_ne_nil (cur s : Str) : splitDunderAux cur s ≠ [] := by
  induction cur, s using splitDunderAux.induct with
  | case1 cur => simp [splitDunderAux]
  | case2 cur rest ih => simp [splitDunderAux]
  | case3 cur c rest hne ih =>
    rw [splitDunderAux]
    · exact ih
    · intro r h1 h2; exact hne r h1 h2

theorem joinDunder_splitDunderAux (cur s : Str) :
    joinDunder (splitDunderAux cur s) = cur.reverse ++ s := by
  induction cur, s using splitDunderAux.induct with
  | case1 cur => simp [splitDunderAux, joinDunder]
  | case2 cur rest ih =>
    rw [splitDunderAux]
    obtain ⟨t, ts, hts⟩ := List.exists_cons_of_ne_nil (splitDunderAux_ne_nil [] rest)
    rw [hts] at ih ⊢
    simp only [joinDunder, List.reverse_nil, List.nil_append] at ih ⊢
    rw [ih]
    simp
  | case3 cur c rest hne ih =>
    rw [splitDunderAux]
    · rw [ih]; simp
    · intro r h1 h2; exact hne r h1 h2

/-- Joining the parts of a split recovers the original string: `splitDunder`
is injective. -/
theorem joinDunder_splitDunder (s : Str) : joinDunder (splitDunder s) = s := by
  simpa using joinDunder_splitDunderAux [] s

theorem splitDunder_inj {s t : Str} (h : splitDunder s = splitDunder t) : s = t := by
  rw [← joinDunder_splitDunder s, ← joinDunder_splitDunder t, h]

/-! ### Association list lemmas -/

theorem lookupA_insertD_self {β : Type} (d : List (Str × β)) (k : Str) (v : β) :
    lookupA k (insertD d k v) = some v := by
  induction d with
  | nil => simp [insertD, lookupA]
  | cons hd tl ih =>
    obtain ⟨k', v'⟩ := hd
    by_cases h : k' = k
    · simp [insertD, h, lookupA]
    · simp [insertD, h, lookupA, ih]

theorem lookupA_insertD_ne {β : Type} (d : List (Str × β)) {k k' : Str} (v : β)
    (h : k' ≠ k) : lookupA k' (insertD d k v) = lookupA k' d := by
  induction d with
  | nil =>
    simp only [insertD, lookupA]
    rw [if_neg (fun hc => h hc.symm)]
  | cons hd tl ih =>
    obtain ⟨k₀, v₀⟩ := hd
    by_cases hh : k₀ = k
    · subst hh
      simp only [insertD, if_pos rfl, lookupA]
      rw [if_neg (fun hc => h hc.symm), if_neg (fun hc => h hc.symm)]
    · simp only [insertD, if_neg hh, lookupA]
      by_cases hk' : k₀ = k'
      · rw [if_pos hk', if_pos hk']
      · rw [if_neg hk', if_neg hk']
        exact ih

theorem insertD_eq_append {β : Type} (d : List (Str × β)) (k : Str) (v : β)
    (h : k ∉ d.map Prod.fst) : insertD d k v = d ++ [(k, v)] := by
  induction d with
  | nil => rfl
  | cons hd tl ih =>
    obtain ⟨k', v'⟩ := hd
    simp only [List.map_cons, List.mem_cons] at h
    push_neg at h
    simp only [insertD]
    rw [if_neg (fun hc => h.1 hc.symm), ih h.2, List.cons_append]

theorem insertD_append_left {β : Type} (d₁ d₂ : List (Str × β)) (k : Str) (v : β)
    (h : k ∈ d₁.map Prod.fst) : insertD (d₁ ++ d₂) k v = insertD d₁ k v ++ d₂ := by
  induction d₁ with
  | nil => simp at h
  | cons hd tl ih =>
    obtain ⟨k', v'⟩ := hd
    by_cases hh : k' = k
    · simp [insertD, hh]
    · simp only [List.map_cons, List.mem_cons] at h
      rcases h with h | h
      · exact absurd h.symm hh
      · simp only [List.cons_append, insertD, if_neg hh]
        exact congrArg _ (ih h)

theorem lookupA_append {β : Type} (d₁ d₂ : List (Str × β)) (k : Str) :
    lookupA k (d₁ ++ d₂) =
      match lookupA k d₁ with
      | some v => some v
      | none => lookupA k d₂ := by
  induction d₁ with
  | nil => simp [lookupA]
  | cons hd tl ih =>
    obtain ⟨k', v'⟩ := hd
    by_cases hh : k' = k
    · simp [lookupA, hh]
    · simp [lookupA, hh, ih]

theorem lookupA_eq_none {β : Type} (d : List (Str × β)) (k : Str)
    (h : k ∉ d.map Prod.fst) : lookupA k d = none := by
  induction d with
  | nil => rfl
  | cons hd tl ih =>
    obtain ⟨k', v'⟩ := hd
    simp only [List.map_cons, List.mem_cons] at h
    push_neg at h
    simp only [lookupA]
    rw [if_neg (fun hc => h.1 hc.symm)]
    exact ih h.2

theorem mem_of_lookupA_eq_some {β : Type} {d : List (Str × β)} {k : Str} {v : β}
    (h : lookupA k d = some v) : (k, v) ∈ d := by
  induction d with
  | nil => simp [lookupA] at h
  | cons hd tl ih =>
    obtain ⟨k', v'⟩ := hd
    by_cases hh : k' = k
    · simp only [lookupA, if_pos hh] at h
      cases h
      subst hh
      exact List.mem_cons_self _ _
    · simp only [lookupA, if_neg hh] at h
      exact List.mem_cons_of_mem _ (ih h)

theorem lookupA_eq_some_of_mem {β : Type} {d : List (Str × β)} {k : Str} {v : β}
    (hnd : (d.map Prod.fst).Nodup) (h : (k, v) ∈ d) : lookupA k d = some v := by
  induction d with
  | nil => cases h
  | cons hd tl ih =>
    obtain ⟨k', v'⟩ := hd
    simp only [List.map_cons, List.nodup_cons] at hnd
    rcases List.mem_cons.mp h with heq | htl
    · cases heq; simp [lookupA]
    · have hk : k' ≠ k := by
        intro hc
        exact hnd.1 (hc ▸ (List.mem_map.mpr ⟨(k, v), htl, rfl⟩))
      simp only [lookupA, if_neg hk]
      exact ih hnd.2 htl

theorem assoc_value_unique {β : Type} {d : List (Str × β)} {k : Str} {v₁ v₂ : β}
    (hnd : (d.map Prod.fst).Nodup) (h₁ : (k, v₁) ∈ d) (h₂ : (k, v₂) ∈ d) : v₁ = v₂ := by
  have e₁ := lookupA_eq_some_of_mem hnd h₁
  have e₂ := lookupA_eq_some_of_mem hnd h₂
  rw [e₁] at e₂
  exact Option.some.inj e₂

theorem lookupA_map_self {β : Type} (ks : List Str) (f : Str → β) {k : Str}
    (hnd : ks.Nodup) (h : k ∈ ks) :
    lookupA k (ks.map (fun k' => (k', f k'))) = some (f k) := by
  induction ks with
  | nil => cases h
  | cons hd tl ih =>
    simp only [List.nodup_cons] at hnd
    rcases List.mem_cons.mp h with heq | htl
    · subst heq; simp [lookupA]
    · have hk : hd ≠ k := fun hc => hnd.1 (hc ▸ htl)
      simp only [List.map_cons, lookupA, if_neg hk]
      exact ih hnd.2 htl

theorem insertD_map_self {β : Type} (ks : List Str) (f : Str → β) {k : Str} (w : β)
    (hnd : ks.Nodup) (h : k ∈ ks) :
    insertD (ks.map (fun k' => (k', f k'))) k w =
      ks.map (fun k' => (k', if k' = k then w else f k')) := by
  induction ks with
  | nil => cases h
  | cons hd tl ih =>
    simp only [List.nodup_cons] at hnd
    rcases List.mem_cons.mp h with heq | htl
    · subst heq
      simp only [List.map_cons, insertD, if_true]
      congr 1
      apply List.map_congr_left
      intro x hx
      have hxk : ¬(x = k) := fun hc => hnd.1 (hc ▸ hx)
      rw [if_neg hxk]
    · have hk : ¬(hd = k) := fun hc => hnd.1 (hc ▸ htl)
      simp only [List.map_cons, insertD]
      rw [if_neg hk, if_neg hk, ih hnd.2 htl]

theorem eq_of_same_keys_of_agree {β : Type} :
    ∀ {p₁ p₂ : List (Str × β)}, p₁.map Prod.fst = p₂.map Prod.fst →
      (p₁.map Prod.fst).Nodup →
      (∀ fk v₁ v₂, (fk, v₁) ∈ p₁ → (fk, v₂) ∈ p₂ → v₁ = v₂) →
      p₁ = p₂ := by
  intro p₁
  induction p₁ with
  | nil =>
    intro p₂ hkeys _ _
    cases p₂ with
    | nil => rfl
    | cons h t => simp at hkeys
  | cons hd tl ih =>
    intro p₂ hkeys hnd hagree
    cases p₂ with
    | nil => simp at hkeys
    | cons hd₂ tl₂ =>
      simp only [List.map_cons, List.cons.injEq] at hkeys
      simp only [List.map_cons, List.nodup_cons] at hnd
      have hv : hd.2 = hd₂.2 := by
        apply hagree hd.1 hd.2 hd₂.2 (List.mem_cons_self _ _)
        rw [show hd.1 = hd₂.1 from hkeys.1]
        exact List.mem_cons_self _ _
      have htl : tl = tl₂ := by
        apply ih hkeys.2 hnd.2
        intro fk v₁ v₂ h₁ h₂
        apply hagree fk v₁ v₂ (List.mem_cons_of_mem _ h₁) (List.mem_cons_of_mem _ h₂)
      calc hd :: tl = (hd.1, hd.2) :: tl := by rw [Prod.mk.eta]
        _ = (hd₂.1, hd₂.2) :: tl₂ := by rw [hkeys.1, hv, htl]
        _ = hd₂ :: tl₂ := by rw [Prod.mk.eta]

/-! ### Cartesian product lemmas -/

/-- Predicate `corrB l p`: `p` picks, in order, one value from every
candidate list of `l` — the membership predicate of `gridProduct l`. -/
def corrB {α : Type} [DecidableEq α] : List (Str × List α) → List (Str × α) → Bool
  | [], [] => true
  | (k, vs) :: rest, (k', v) :: ps => decide (k' = k) && decide (v ∈ vs) && corrB rest ps
  | _, _ => false

theorem gridProduct_length {α : Type} (l : List (Str × List α)) :
    (gridProduct l).length = (l.map (fun kv => kv.2.length)).prod := by
  induction l with
  | nil => rfl
  | cons hd tl ih =>
    obtain ⟨k, vs⟩ := hd
    simp only [gridProduct, List.length_flatMap, List.map_map]
    simp only [Function.comp_def, List.length_map, ih]
    simp [List.map_const', List.sum_replicate, smul_eq_mul, List.prod_cons, mul_comm]

theorem mem_gridProduct {α : Type} [DecidableEq α] :
    ∀ (l : List (Str × List α)) (p : List (Str × α)),
      p ∈ gridProduct l ↔ corrB l p = true := by
  intro l
  induction l with
  | nil =>
    intro p
    cases p with
    | nil => simp [gridProduct, corrB]
    | cons h t => simp [gridProduct, corrB]
  | cons hd tl ih =>
    intro p
    obtain ⟨k, vs⟩ := hd
    simp only [gridProduct, List.mem_flatMap, List.mem_map]
    constructor
    · rintro ⟨v, hv, q, hq, rfl⟩
      simp only [corrB, Bool.and_eq_true, decide_eq_true_eq]
      exact ⟨⟨trivial, hv⟩, (ih q).mp hq⟩
    · intro hc
      cases p with
      | nil => simp [corrB] at hc
      | cons hp tp =>
        obtain ⟨k', v⟩ := hp
        simp only [corrB, Bool.and_eq_true, decide_eq_true_eq] at hc
        exact ⟨v, hc.1.2, tp, (ih tp).mpr hc.2, by rw [hc.1.1]⟩

theorem corrB_keys {α : Type} [DecidableEq α] :
    ∀ {l : List (Str × List α)} {p : List (Str × α)},
      corrB l p = true → p.map Prod.fst = l.map Prod.fst := by
  intro l
  induction l with
  | nil => intro p h; cases p with
    | nil => rfl
    | cons a b => simp [corrB] at h
  | cons hd tl ih =>
    intro p h
    obtain ⟨k, vs⟩ := hd
    cases p with
    | nil => simp [corrB] at h
    | cons hp tp =>
      obtain ⟨k', v⟩ := hp
      simp only [corrB, Bool.and_eq_true, decide_eq_true_eq] at h
      simp only [List.map_cons]
      rw [h.1.1, ih h.2]

theorem corrB_mem_values {α : Type} [DecidableEq α] :
    ∀ {l : List (Str × List α)} {p : List (Str × α)}, corrB l p = true →
      ∀ fk v, (fk, v) ∈ p → ∃ vs, (fk, vs) ∈ l ∧ v ∈ vs := by
  intro l
  induction l with
  | nil => intro p h fk v hm; cases p with
    | nil => cases hm
    | cons a b => simp [corrB] at h
  | cons hd tl ih =>
    intro p h fk v hm
    obtain ⟨k, vs⟩ := hd
    cases p with
    | nil => simp [corrB] at h
    | cons hp tp =>
      obtain ⟨k', w⟩ := hp
      simp only [corrB, Bool.and_eq_true, decide_eq_true_eq] at h
      rcases List.mem_cons.mp hm with heq | htl
      · injection heq with h1 h2
        subst h1; subst h2
        refine ⟨vs, ?_, h.1.2⟩
        rw [h.1.1]
        exact List.mem_cons_self _ _
      · obtain ⟨vs', hvs', hv⟩ := ih h.2 fk v htl
        exact ⟨vs', List.mem_cons_of_mem _ hvs', hv⟩

theorem gridProduct_nodup {α : Type} [DecidableEq α] :
    ∀ (l : List (Str × List α)), (∀ kv ∈ l, kv.2.Nodup) → (gridProduct l).Nodup := by
  intro l
  induction l with
  | nil => intro _; simp [gridProduct]
  | cons hd tl ih =>
    intro h
    obtain ⟨k, vs⟩ := hd
    have hvs : vs.Nodup := h (k, vs) (List.mem_cons_self _ _)
    have htl : (gridProduct tl).Nodup := ih (fun kv hm => h kv (List.mem_cons_of_mem _ hm))
    simp only [gridProduct]
    rw [List.nodup_flatMap]
    constructor
    · intro v _
      exact htl.map (fun a b hab => List.cons.inj hab |>.2)
    · rw [List.pairwise_iff_forall_sublist]
      intro v w hsub
      have hvw : v ≠ w := by
        have := hvs.sublist hsub
        simp only [List.nodup_cons] at this
        simpa using this.1
      intro x hx hy
      simp only [List.mem_map] at hx hy
      obtain ⟨q₁, _, hq₁⟩ := hx
      obtain ⟨q₂, _, hq₂⟩ := hy
      rw [← hq₂] at hq₁
      exact hvw (congrArg Prod.snd (List.cons.inj hq₁).1)

theorem nodup_singleton_of_all_eq {β : Type} {l : List β} {x : β}
    (hnd : l.Nodup) (hx : x ∈ l) (hall : ∀ y ∈ l, y = x) : l = [x] := by
  cases l with
  | nil => cases hx
  | cons hd tl =>
    have hhd : hd = x := hall hd (List.mem_cons_self _ _)
    subst hhd
    cases tl with
    | nil => rfl
    | cons hd₂ tl₂ =>
      have h2 : hd₂ = hd := hall hd₂ (List.mem_cons_of_mem _ (List.mem_cons_self _ _))
      simp [h2] at hnd

/-! ### `Except` loop lemmas -/

theorem exMapM_ok {α β ε : Type} (f : α → Except ε β) (u : α → β) :
    ∀ (l : List α), (∀ x ∈ l, f x = .ok (u x)) → exMapM f l = .ok (l.map u) := by
  intro l
  induction l with
  | nil => intro _; rfl
  | cons hd tl ih =>
    intro h
    simp only [exMapM, h hd (List.mem_cons_self _ _),
      ih (fun x hx => h x (List.mem_cons_of_mem _ hx)), List.map_cons]

/-! ### Easy facts about the flattening loop -/

theorem flattenInner_error_of_deep {α : Type} (k : Str) :
    ∀ (inner : List (Str × PEntry α)) (acc : List (Str × List α)),
      (∃ ikv ∈ inner, ikv.2.isNest = true) →
      flattenInner k acc inner = .error .depth := by
  intro inner
  induction inner with
  | nil => intro acc h; rcases h with ⟨_, hmem, _⟩; cases hmem
  | cons hd tl ih =>
    intro acc h
    obtain ⟨ikv, hmem, hnest⟩ := h
    match hhd : hd with
    | (ik, PEntry.nest i2) => rfl
    | (ik, PEntry.vals vs) =>
      have : ikv ∈ tl := by
        rcases List.mem_cons.mp hmem with heq | htl
        · subst heq; simp [PEntry.isNest] at hnest
        · exact htl
      exact ih _ ⟨ikv, this, hnest⟩

theorem flattenInner_ok_of_shallow {α : Type} (k : Str) :
    ∀ (inner : List (Str × PEntry α)) (acc : List (Str × List α)),
      (∀ ikv ∈ inner, ikv.2.isNest = false) →
      ∃ acc', flattenInner k acc inner = .ok acc' := by
  intro inner
  induction inner with
  | nil => intro acc _; exact ⟨acc, rfl⟩
  | cons hd tl ih =>
    intro acc h
    match hhd : hd with
    | (ik, PEntry.nest i2) =>
      have := h (ik, PEntry.nest i2) (by simp)
      simp [PEntry.isNest] at this
    | (ik, PEntry.vals vs) =>
      exact ih _ (fun ikv hm => h ikv (List.mem_cons_of_mem _ hm))

theorem flattenLoop_error_of_deep {α : Type} :
    ∀ (d : List (Str × PEntry α)) (acc : List (Str × List α)) (dks : List Str),
      (∃ kv ∈ d, deepB kv.2 = true) →
      flattenLoop acc dks d = .error .depth := by
  intro d
  induction d with
  | nil => intro acc dks h; rcases h with ⟨_, hmem, _⟩; cases hmem
  | cons hd tl ih =>
    intro acc dks h
    match hhd : hd with
    | (k, PEntry.vals vs) =>
      obtain ⟨kv, hmem, hdeep⟩ := h
      have : kv ∈ tl := by
        rcases List.mem_cons.mp hmem with heq | htl
        · subst heq; simp [deepB] at hdeep
        · exact htl
      exact ih _ _ ⟨kv, this, hdeep⟩
    | (k, PEntry.nest inner) =>
      by_cases hin : ∃ ikv ∈ inner, ikv.2.isNest = true
      · show (match flattenInner k acc inner with
          | .ok acc' => flattenLoop acc' (dks ++ [k]) tl
          | .error e => .error e) = .error .depth
        rw [flattenInner_error_of_deep k inner acc hin]
      · push_neg at hin
        have hsh : ∀ ikv ∈ inner, ikv.2.isNest = false := by
          intro ikv hm
          cases hnb : ikv.2.isNest with
          | false => rfl
          | true => exact absurd hnb (hin ikv hm)
        obtain ⟨acc', hacc'⟩ := flattenInner_ok_of_shallow k inner acc hsh
        show (match flattenInner k acc inner with
          | .ok acc' => flattenLoop acc' (dks ++ [k]) tl
          | .error e => .error e) = .error .depth
        rw [hacc']
        obtain ⟨kv, hmem, hdeep⟩ := h
        have : kv ∈ tl := by
          rcases List.mem_cons.mp hmem with heq | htl
          · subst heq
            simp only [deepB] at hdeep
            obtain ⟨ikv, hm, hn⟩ := List.any_eq_true.mp hdeep
            exact absurd hn (by simp [hsh ikv hm])
          · exact htl
        exact ih _ _ ⟨kv, this, hdeep⟩

/-! ### The flattening loop as a pure append-structured list -/

theorem flatList_cons_vals {α : Type} (k : Str) (vs : List α) (rest : List (Str × PEntry α)) :
    flatList ((k, PEntry.vals vs) :: rest) = (k, vs) :: flatList rest := by
  simp [flatList]

theorem flatList_cons_nest {α : Type} (k : Str) (inner rest : List (Str × PEntry α)) :
    flatList ((k, PEntry.nest inner) :: rest) =
      inner.map (fun ikv => (flatKey k ikv.1, ikv.2.getVals)) ++ flatList rest := by
  simp [flatList]

theorem dunderKeys_cons_vals {α : Type} (k : Str) (vs : List α) (rest : List (Str × PEntry α)) :
    dunderKeys ((k, PEntry.vals vs) :: rest) = dunderKeys rest := by
  simp [dunderKeys, List.filter_cons, PEntry.isNest]

theorem dunderKeys_cons_nest {α : Type} (k : Str) (inner rest : List (Str × PEntry α)) :
    dunderKeys ((k, PEntry.nest inner) :: rest) = k :: dunderKeys rest := by
  simp [dunderKeys, List.filter_cons, PEntry.isNest]

theorem flattenInner_eq_append {α : Type} (k : Str) :
    ∀ (inner : List (Str × PEntry α)) (acc : List (Str × List α)),
      (∀ ikv ∈ inner, ikv.2.isNest = false) →
      (∀ ikv ∈ inner, flatKey k ikv.1 ∉ acc.map Prod.fst) →
      (inner.map (fun ikv => flatKey k ikv.1)).Nodup →
      flattenInner k acc inner =
        .ok (acc ++ inner.map (fun ikv => (flatKey k ikv.1, ikv.2.getVals))) := by
  intro inner
  induction inner with
  | nil => intro acc _ _ _; simp [flattenInner]
  | cons hd tl ih =>
    intro acc hsh hfresh hnd
    obtain ⟨ik, e⟩ := hd
    match e with
    | PEntry.nest i2 =>
      have := hsh (ik, PEntry.nest i2) (List.mem_cons_self _ _)
      simp [PEntry.isNest] at this
    | PEntry.vals vs =>
      show flattenInner k (insertD acc (flatKey k ik) vs) tl = _
      have hfk : flatKey k ik ∉ acc.map Prod.fst :=
        hfresh (ik, PEntry.vals vs) (List.mem_cons_self _ _)
      rw [insertD_eq_append acc _ vs hfk]
      simp only [List.map_cons, List.nodup_cons] at hnd
      rw [ih (acc ++ [(flatKey k ik, vs)])
          (fun ikv hm => hsh ikv (List.mem_cons_of_mem _ hm))
          (fun ikv hm => by
            simp only [List.map_append, List.mem_append, List.map_cons]
            push_neg
            refine ⟨hfresh ikv (List.mem_cons_of_mem _ hm), ?_⟩
            intro hc
            simp only [List.map_nil, List.mem_singleton] at hc
            exact hnd.1 (hc ▸ List.mem_map.mpr ⟨ikv, hm, rfl⟩))
          hnd.2]
      simp [PEntry.getVals]

theorem flattenLoop_eq {α : Type} :
    ∀ (d : List (Str × PEntry α)) (acc : List (Str × List α)) (dks : List Str),
      (∀ kv ∈ d, deepB kv.2 = false) →
      (acc.map Prod.fst ++ flatKeys d).Nodup →
      flattenLoop acc dks d = .ok (acc ++ flatList d, dks ++ dunderKeys d) := by
  intro d
  induction d with
  | nil =>
    intro acc dks _ _
    simp [flattenLoop, flatList, dunderKeys]
  | cons hd tl ih =>
    intro acc dks hsh hnd
    obtain ⟨k, e⟩ := hd
    match e with
    | PEntry.vals vs =>
      show flattenLoop (insertD acc k vs) dks tl = _
      rw [flatKeys, flatList_cons_vals] at hnd
      simp only [List.map_cons] at hnd
      rw [List.append_cons] at hnd
      have hkacc : k ∉ acc.map Prod.fst := by
        have h1 := hnd.sublist (List.sublist_append_left _ _)
        rw [List.nodup_append] at h1
        intro hc
        exact h1.2.2 hc (List.mem_singleton_self k)
      rw [insertD_eq_append acc k vs hkacc]
      rw [ih (acc ++ [(k, vs)]) dks (fun kv hm => hsh kv (List.mem_cons_of_mem _ hm))
        (by simpa [flatKeys] using hnd)]
      rw [flatList_cons_vals, dunderKeys_cons_vals]
      simp
    | PEntry.nest inner =>
      have hshinner : ∀ ikv ∈ inner, ikv.2.isNest = false := by
        have := hsh (k, PEntry.nest inner) (List.mem_cons_self _ _)
        simp only [deepB, List.any_eq_false] at this
        intro ikv hm
        simpa using this ikv hm
      rw [flatKeys, flatList_cons_nest, List.map_append, List.map_map] at hnd
      have hinnerkeys : (inner.map (fun ikv => flatKey k ikv.1)).Nodup := by
        have h2 := hnd.of_append_right.of_append_left
        simpa [Function.comp_def] using h2
      have hfresh : ∀ ikv ∈ inner, flatKey k ikv.1 ∉ acc.map Prod.fst := by
        intro ikv hm hc
        have hdisj := (List.nodup_append.mp hnd).2.2
        refine hdisj hc (List.mem_append_left _ ?_)
        exact List.mem_map.mpr ⟨ikv, hm, by simp⟩
      have hfi := flattenInner_eq_append k inner acc hshinner hfresh hinnerkeys
      show (match flattenInner k acc inner with
        | .ok acc' => flattenLoop acc' (dks ++ [k]) tl
        | .error e => .error e) = _
      rw [hfi]
      show flattenLoop (acc ++ inner.map (fun ikv => (flatKey k ikv.1, ikv.2.getVals)))
        (dks ++ [k]) tl = _
      rw [ih _ _ (fun kv hm => hsh kv (List.mem_cons_of_mem _ hm))
        (by
          rw [← List.append_assoc] at hnd
          simpa [flatKeys, Function.comp_def] using hnd)]
      rw [flatList_cons_nest, dunderKeys_cons_nest]
      simp

theorem flattenLoop_top {α : Type} (d : List (Str × PEntry α))
    (hsh : ∀ kv ∈ d, deepB kv.2 = false) (hnd : (flatKeys d).Nodup) :
    flattenLoop [] [] d = .ok (flatList d, dunderKeys d) := by
  have := flattenLoop_eq d [] [] hsh (by simpa using hnd)
  simpa using this

/-! ### Membership structure of the flattened list -/

theorem mem_flatList {α : Type} {d : List (Str × PEntry α)} {fk : Str} {vs : List α} :
    (fk, vs) ∈ flatList d ↔
      ((fk, PEntry.vals vs) ∈ d ∨
        ∃ k inner ikv, (k, PEntry.nest inner) ∈ d ∧ ikv ∈ inner ∧
          fk = flatKey k ikv.1 ∧ vs = ikv.2.getVals) := by
  simp only [flatList, List.mem_flatMap]
  constructor
  · rintro ⟨kv, hkv, hmem⟩
    obtain ⟨k, e⟩ := kv
    match e with
    | PEntry.vals vs' =>
      simp only [List.mem_singleton] at hmem
      injection hmem with h1 h2
      subst h1; subst h2
      exact Or.inl hkv
    | PEntry.nest inner =>
      simp only [List.mem_map] at hmem
      obtain ⟨ikv, hik, heq⟩ := hmem
      injection heq with h1 h2
      exact Or.inr ⟨k, inner, ikv, hkv, hik, h1.symm, h2.symm⟩
  · rintro (h | ⟨k, inner, ikv, hd, hik, rfl, rfl⟩)
    · exact ⟨(fk, PEntry.vals vs), h, by simp⟩
    · exact ⟨(k, PEntry.nest inner), hd, List.mem_map.mpr ⟨ikv, hik, rfl⟩⟩

theorem mem_dunderKeys {α : Type} {d : List (Str × PEntry α)} {k : Str} :
    k ∈ dunderKeys d ↔ ∃ e, (k, e) ∈ d ∧ PEntry.isNest e = true := by
  simp only [dunderKeys, List.mem_map, List.mem_filter]
  constructor
  · rintro ⟨kv, ⟨hm, hn⟩, rfl⟩
    exact ⟨kv.2, by simpa using hm, hn⟩
  · rintro ⟨e, hm, hn⟩
    exact ⟨(k, e), ⟨hm, hn⟩, rfl⟩

/-! ### Unpacking the well-formedness predicate -/

theorem wfB_props {α : Type} [DecidableEq α] {d : List (Str × PEntry α)} (h : wfB d = true) :
    (d.map Prod.fst).Nodup ∧
    (∀ kv ∈ d, splitDunder kv.1 = [kv.1]) ∧
    (flatKeys d).Nodup ∧
    (∀ k inner, (k, PEntry.nest inner) ∈ d →
      (inner.map Prod.fst).Nodup ∧
      ∀ ikv ∈ inner, ikv.2.isNest = false ∧
        splitDunder (flatKey k ikv.1) = [k, ikv.1] ∧ ikv.2.getVals.Nodup) ∧
    (∀ k vs, (k, PEntry.vals vs) ∈ d → vs.Nodup) := by
  simp only [wfB, Bool.and_eq_true, List.all_eq_true, decide_eq_true_eq] at h
  obtain ⟨⟨⟨h1, h2⟩, h3⟩, h4⟩ := h
  refine ⟨h1, h2, h3, ?_, ?_⟩
  · intro k inner hmem
    have h5 := h4 (k, PEntry.nest inner) hmem
    simp only [Bool.and_eq_true, List.all_eq_true, decide_eq_true_eq,
      Bool.not_eq_true'] at h5
    exact ⟨h5.1, fun ikv hik =>
      ⟨(h5.2 ikv hik).1.1, (h5.2 ikv hik).1.2, (h5.2 ikv hik).2⟩⟩
  · intro k vs hmem
    have h5 := h4 (k, PEntry.vals vs) hmem
    simpa using h5

/-! ### The un-flattening fold as a pure function -/

theorem splitDunder_singleton {s t : Str} (h : splitDunder s = [t]) : t = s := by
  have hj := joinDunder_splitDunder s
  rw [h] at hj
  exact hj

/-- The inner sub-dict collected for dunder key `k` while un-flattening `p`. -/
def innerPick {α : Type} (k : Str) (p : List (Str × α)) : List (Str × α) :=
  p.filterMap (fun kv =>
    match splitDunder kv.1 with
    | [o, i] => if o = k then some (i, kv.2) else none
    | _ => none)

/-- The top-level scalar entries collected while un-flattening `p`. -/
def topPicks {α : Type} (p : List (Str × α)) : Cfg α :=
  p.filterMap (fun kv =>
    match splitDunder kv.1 with
    | [_] => some (kv.1, CItem.scalar kv.2)
    | _ => none)

/-- The pure value computed by the un-flattening fold. -/
def uPure {α : Type} (dks : List Str) (p : List (Str × α)) : Cfg α :=
  dks.map (fun k => (k, CItem.nest (innerPick k p))) ++ topPicks p

theorem innerPick_snoc_two {α : Type} (k : Str) (q : List (Str × α)) (kv : Str × α)
    {o i : Str} (h : splitDunder kv.1 = [o, i]) :
    innerPick k (q ++ [kv]) = innerPick k q ++ (if o = k then [(i, kv.2)] else []) := by
  by_cases ho : o = k <;> simp [innerPick, List.filterMap_append, h, ho]

theorem innerPick_snoc_one {α : Type} (k : Str) (q : List (Str × α)) (kv : Str × α)
    {t : Str} (h : splitDunder kv.1 = [t]) :
    innerPick k (q ++ [kv]) = innerPick k q := by
  simp [innerPick, List.filterMap_append, h]

theorem topPicks_snoc_two {α : Type} (q : List (Str × α)) (kv : Str × α)
    {o i : Str} (h : splitDunder kv.1 = [o, i]) :
    topPicks (q ++ [kv]) = topPicks q := by
  simp [topPicks, List.filterMap_append, h]

theorem topPicks_snoc_one {α : Type} (q : List (Str × α)) (kv : Str × α)
    {t : Str} (h : splitDunder kv.1 = [t]) :
    topPicks (q ++ [kv]) = topPicks q ++ [(kv.1, CItem.scalar kv.2)] := by
  simp [topPicks, List.filterMap_append, h]

theorem mem_topPicks {α : Type} {p : List (Str × α)} {x : Str × CItem α} :
    x ∈ topPicks p ↔
      ∃ fk v, (fk, v) ∈ p ∧ splitDunder fk = [fk] ∧ x = (fk, CItem.scalar v) := by
  simp only [topPicks, List.mem_filterMap]
  constructor
  · rintro ⟨kv, hkv, hx⟩
    rcases hsp : splitDunder kv.1 with _ | ⟨a, _ | ⟨b, l⟩⟩
    · rw [hsp] at hx; cases hx
    · rw [hsp] at hx
      refine ⟨kv.1, kv.2, by simpa using hkv, ?_, ?_⟩
      · rw [hsp, splitDunder_singleton hsp]
      · cases hx; rfl
    · rw [hsp] at hx
      cases l <;> cases hx
  · rintro ⟨fk, v, hmem, hsp, rfl⟩
    exact ⟨(fk, v), hmem, by rw [hsp]⟩

theorem mem_innerPick {α : Type} {k : Str} {p : List (Str × α)} {i : Str} {v : α} :
    (i, v) ∈ innerPick k p ↔ ∃ fk, (fk, v) ∈ p ∧ splitDunder fk = [k, i] := by
  simp only [innerPick, List.mem_filterMap]
  constructor
  · rintro ⟨kv, hkv, hx⟩
    rcases hsp : splitDunder kv.1 with _ | ⟨a, _ | ⟨b, _ | ⟨c, l⟩⟩⟩
    · rw [hsp] at hx; cases hx
    · rw [hsp] at hx; cases hx
    · rw [hsp] at hx
      have hx' : (if a = k then some (b, kv.2) else none) = some (i, v) := hx
      by_cases ha : a = k
      · rw [if_pos ha] at hx'
        injection hx' with h1
        injection h1 with hb hv
        subst hb; subst hv; subst ha
        exact ⟨kv.1, by simpa using hkv, hsp⟩
      · rw [if_neg ha] at hx'; cases hx'
    · rw [hsp] at hx; cases hx
  · rintro ⟨fk, hmem, hsp⟩
    refine ⟨(fk, v), hmem, ?_⟩
    rw [hsp]
    show (if k = k then some (i, v) else none) = some (i, v)
    rw [if_pos rfl]

theorem mem_keys_innerPick {α : Type} {k : Str} {p : List (Str × α)} {i : Str} :
    i ∈ (innerPick k p).map Prod.fst ↔ ∃ fk v, (fk, v) ∈ p ∧ splitDunder fk = [k, i] := by
  constructor
  · intro h
    obtain ⟨⟨i', v⟩, hm, hi⟩ := List.mem_map.mp h
    cases hi
    obtain ⟨fk, hfk, hsp⟩ := mem_innerPick.mp hm
    exact ⟨fk, v, hfk, hsp⟩
  · rintro ⟨fk, v, hmem, hsp⟩
    exact List.mem_map.mpr ⟨(i, v), mem_innerPick.mpr ⟨fk, hmem, hsp⟩, rfl⟩

theorem uPure_keys {α : Type} (dks : List Str) (p : List (Str × α)) :
    (uPure dks p).map Prod.fst = dks ++ (topPicks p).map Prod.fst := by
  simp [uPure, Function.comp_def]

theorem topPicks_keys_sub {α : Type} {p : List (Str × α)} {x : Str} :
    x ∈ (topPicks p).map Prod.fst → x ∈ p.map Prod.fst := by
  intro h
  obtain ⟨pr, hm, hx⟩ := List.mem_map.mp h
  obtain ⟨fk, v, hmem, _, hpr⟩ := mem_topPicks.mp hm
  subst hpr
  cases hx
  exact List.mem_map.mpr ⟨(fk, v), hmem, rfl⟩

theorem exFoldl_cons_ok {σ α ε : Type} (f : σ → α → Except ε σ) (s₀ s₁ : σ) (a : α)
    (as : List α) (h : f s₀ a = .ok s₁) :
    exFoldl f s₀ (a :: as) = exFoldl f s₁ as := by
  simp [exFoldl, h]

theorem unflat_fold {α : Type} (dks : List Str) (hdk : dks.Nodup) :
    ∀ (p q : List (Str × α)),
      ((q ++ p).map Prod.fst).Nodup →
      (∀ kv ∈ q ++ p, (splitDunder kv.1 = [kv.1] ∧ kv.1 ∉ dks) ∨
        (∃ o i, splitDunder kv.1 = [o, i] ∧ o ∈ dks)) →
      exFoldl unflatStep (uPure dks q) p = .ok (uPure dks (q ++ p)) := by
  intro p
  induction p with
  | nil => intro q _ _; simp [exFoldl]
  | cons kv rest ih =>
    intro q hnd hslot
    have hkvmem : kv ∈ q ++ kv :: rest :=
      List.mem_append_right _ (List.mem_cons_self _ _)
    have hkvq : kv.1 ∉ q.map Prod.fst := by
      intro hc
      rw [List.map_append, List.nodup_append] at hnd
      exact hnd.2.2 hc (List.mem_map.mpr ⟨kv, List.mem_cons_self _ _, rfl⟩)
    have hstep : unflatStep (uPure dks q) kv = .ok (uPure dks (q ++ [kv])) := by
      rcases hslot kv hkvmem with ⟨hsp, hnotdk⟩ | ⟨o, i, hsp, hodk⟩
      · simp only [unflatStep, hsp]
        have hfresh : kv.1 ∉ (uPure dks q).map Prod.fst := by
          rw [uPure_keys]
          intro hc
          rcases List.mem_append.mp hc with hc | hc
          · exact hnotdk hc
          · exact hkvq (topPicks_keys_sub hc)
        rw [insertD_eq_append _ _ _ hfresh]
        congr 1
        rw [uPure, uPure, topPicks_snoc_one q kv hsp, List.append_assoc]
        congr 1
        apply List.map_congr_left
        intro k _
        rw [innerPick_snoc_one k q kv hsp]
      · simp only [unflatStep, hsp]
        have hlook : lookupA o (uPure dks q) = some (CItem.nest (innerPick o q)) := by
          rw [uPure, lookupA_append]
          rw [lookupA_map_self dks _ hdk hodk]
        simp only [hlook]
        have hifresh : i ∉ (innerPick o q).map Prod.fst := by
          intro hc
          obtain ⟨fk, v, hmem, hsp2⟩ := mem_keys_innerPick.mp hc
          have hfkkv : fk = kv.1 := splitDunder_inj (hsp2.trans hsp.symm)
          subst hfkkv
          exact hkvq (List.mem_map.mpr ⟨(kv.1, v), hmem, rfl⟩)
        have hinsert : insertD (innerPick o q) i kv.2 = innerPick o q ++ [(i, kv.2)] :=
          insertD_eq_append _ _ _ hifresh
        have hodkmap : o ∈ (dks.map (fun k => (k, CItem.nest (innerPick k q)))).map Prod.fst := by
          simp only [List.map_map, Function.comp_def]
          simpa using hodk
        rw [uPure, insertD_append_left _ _ _ _ hodkmap]
        rw [insertD_map_self dks _ _ hdk hodk]
        congr 1
        rw [uPure, topPicks_snoc_two q kv hsp]
        congr 1
        apply List.map_congr_left
        intro k hk
        by_cases hko : k = o
        · subst hko
          rw [if_pos rfl, innerPick_snoc_two k q kv hsp, if_pos rfl, hinsert]
        · rw [if_neg hko, innerPick_snoc_two k q kv hsp,
            if_neg (fun hc => hko hc.symm), List.append_nil]
    rw [exFoldl_cons_ok _ _ _ _ _ hstep]
    rw [ih (q ++ [kv]) (by simpa using hnd) (by
      intro kv2 hm
      apply hslot
      rcases List.mem_append.mp hm with hm | hm
      · rcases List.mem_append.mp hm with hm | hm
        · exact List.mem_append_left _ hm
        · simp only [List.mem_singleton] at hm
          subst hm
          exact hkvmem
      · exact List.mem_append_right _ (List.mem_cons_of_mem _ hm))]
    rw [List.append_assoc]
    rfl

/-- Lemma: `unflattenOne` on a product element is the pure un-flattening. -/
theorem unflattenOne_eq {α : Type} (dks : List Str) (hdk : dks.Nodup)
    (p : List (Str × α)) (hnd : (p.map Prod.fst).Nodup)
    (hslot : ∀ kv ∈ p, (splitDunder kv.1 = [kv.1] ∧ kv.1 ∉ dks) ∨
      (∃ o i, splitDunder kv.1 = [o, i] ∧ o ∈ dks)) :
    unflattenOne dks p = .ok (uPure dks p) := by
  have h0 : uPure dks ([] : List (Str × α)) = dks.map (fun k => (k, CItem.nest [])) := by
    simp [uPure, innerPick, topPicks]
  have h1 : ((([] : List (Str × α)) ++ p).map Prod.fst).Nodup := by
    rw [List.nil_append]; exact hnd
  have h2 : ∀ kv ∈ ([] : List (Str × α)) ++ p,
      (splitDunder kv.1 = [kv.1] ∧ kv.1 ∉ dks) ∨
        (∃ o i, splitDunder kv.1 = [o, i] ∧ o ∈ dks) := by
    rw [List.nil_append]; exact hslot
  have hmain := unflat_fold dks hdk p [] h1 h2
  rw [h0, List.nil_append] at hmain
  exact hmain

/-! ### Relating selections, product elements and un-flattened output -/

/-- The value a configuration `c` assigns to the slot named by the
flattened key `fk`. -/
def pickOf {α : Type} (c : Cfg α) (fk : Str) : Option α :=
  match splitDunder fk with
  | [o, i] =>
    match lookupA o c with
    | some (CItem.nest m) => lookupA i m
    | _ => none
  | [_] =>
    match lookupA fk c with
    | some (CItem.scalar v) => some v
    | _ => none
  | _ => none

/-- The well-formedness facts of `wfB`, unbundled. -/
structure WFCtx {α : Type} (d : List (Str × PEntry α)) : Prop where
  keysNodup : (d.map Prod.fst).Nodup
  topSplit : ∀ kv ∈ d, splitDunder kv.1 = [kv.1]
  flatNodup : (flatKeys d).Nodup
  innerWF : ∀ k inner, (k, PEntry.nest inner) ∈ d →
    (inner.map Prod.fst).Nodup ∧
    ∀ ikv ∈ inner, ikv.2.isNest = false ∧
      splitDunder (flatKey k ikv.1) = [k, ikv.1] ∧ ikv.2.getVals.Nodup
  valsNodup : ∀ k vs, (k, PEntry.vals vs) ∈ d → vs.Nodup

theorem wfCtx_of_wfB {α : Type} [DecidableEq α] {d : List (Str × PEntry α)}
    (h : wfB d = true) : WFCtx d := by
  obtain ⟨h1, h2, h3, h4, h5⟩ := wfB_props h
  exact ⟨h1, h2, h3, h4, h5⟩

theorem dunderKeys_nodup {α : Type} {d : List (Str × PEntry α)}
    (h : (d.map Prod.fst).Nodup) : (dunderKeys d).Nodup := by
  apply h.sublist
  exact (List.filter_sublist d).map Prod.fst

/-- Classification of a flattened entry by its origin in `d`. -/
theorem flat_origin {α : Type} {d : List (Str × PEntry α)} (W : WFCtx d)
    {fk : Str} {vs : List α} (h : (fk, vs) ∈ flatList d) :
    (splitDunder fk = [fk] ∧ (fk, PEntry.vals vs) ∈ d ∧ fk ∉ dunderKeys d) ∨
    (∃ k ik e inner, splitDunder fk = [k, ik] ∧ fk = flatKey k ik ∧
      (k, PEntry.nest inner) ∈ d ∧ (ik, e) ∈ inner ∧ vs = e.getVals ∧
      k ∈ dunderKeys d) := by
  rcases mem_flatList.mp h with hv | ⟨k, inner, ikv, hd, hik, hfk, hvs⟩
  · left
    refine ⟨W.topSplit (fk, PEntry.vals vs) hv, hv, ?_⟩
    intro hc
    obtain ⟨e, he, hn⟩ := mem_dunderKeys.mp hc
    have := assoc_value_unique W.keysNodup hv he
    rw [← this] at hn
    simp [PEntry.isNest] at hn
  · right
    obtain ⟨ik, e⟩ := ikv
    refine ⟨k, ik, e, inner, ?_, hfk, hd, hik, hvs, ?_⟩
    · rw [hfk]
      exact ((W.innerWF k inner hd).2 (ik, e) hik).2.1
    · exact mem_dunderKeys.mpr ⟨PEntry.nest inner, hd, rfl⟩

theorem uPure_lookup_dk {α : Type} {dks : List Str} (hdk : dks.Nodup)
    (p : List (Str × α)) {k : Str} (h : k ∈ dks) :
    lookupA k (uPure dks p) = some (CItem.nest (innerPick k p)) := by
  rw [uPure, lookupA_append, lookupA_map_self dks _ hdk h]

theorem uPure_lookup_top {α : Type} {dks : List Str} (p : List (Str × α)) {k : Str}
    (h : k ∉ dks) : lookupA k (uPure dks p) = lookupA k (topPicks p) := by
  rw [uPure, lookupA_append]
  have : lookupA k (dks.map (fun k' => (k', CItem.nest (innerPick k' p)))) = none := by
    apply lookupA_eq_none
    simp only [List.map_map, Function.comp_def, List.map_id']
    simpa using h
  rw [this]

theorem topPicks_keys_sublist {α : Type} :
    ∀ (p : List (Str × α)), List.Sublist ((topPicks p).map Prod.fst) (p.map Prod.fst) := by
  intro p
  induction p with
  | nil => simp [topPicks]
  | cons kv rest ih =>
    rcases hsp : splitDunder kv.1 with _ | ⟨a, _ | ⟨b, l⟩⟩ <;>
      simp only [topPicks, List.filterMap_cons, hsp] at * <;>
      first
        | exact (ih.cons _)
        | (simp only [List.map_cons]; exact ih.cons₂ _)

theorem lookupA_topPicks {α : Type} {p : List (Str × α)}
    (hnd : (p.map Prod.fst).Nodup) {fk : Str} {v : α}
    (hmem : (fk, v) ∈ p) (hsp : splitDunder fk = [fk]) :
    lookupA fk (topPicks p) = some (CItem.scalar v) := by
  apply lookupA_eq_some_of_mem
  · exact hnd.sublist (topPicks_keys_sublist p)
  · exact mem_topPicks.mpr ⟨fk, v, hmem, hsp, rfl⟩

theorem innerPick_keys_nodup {α : Type} (k : Str) {p : List (Str × α)}
    (hnd : (p.map Prod.fst).Nodup) : ((innerPick k p).map Prod.fst).Nodup := by
  induction p with
  | nil => simp [innerPick]
  | cons kv rest ih =>
    simp only [List.map_cons, List.nodup_cons] at hnd
    rcases hsp : splitDunder kv.1 with _ | ⟨a, _ | ⟨b, _ | ⟨e, l⟩⟩⟩
    · simpa [innerPick, List.filterMap_cons, hsp] using ih hnd.2
    · simpa [innerPick, List.filterMap_cons, hsp] using ih hnd.2
    · by_cases ha : a = k
      · have hstep : innerPick k (kv :: rest) = (b, kv.2) :: innerPick k rest := by
          simp [innerPick, List.filterMap_cons, hsp, ha]
        rw [hstep]
        simp only [List.map_cons, List.nodup_cons]
        refine ⟨?_, ih hnd.2⟩
        intro hc
        obtain ⟨fk, w, hmem, hsp2⟩ := mem_keys_innerPick.mp hc
        have hfk : fk = kv.1 := splitDunder_inj (by rw [hsp2, hsp, ha])
        subst hfk
        exact hnd.1 (List.mem_map.mpr ⟨(kv.1, w), hmem, rfl⟩)
      · simpa [innerPick, List.filterMap_cons, hsp, ha] using ih hnd.2
    · simpa [innerPick, List.filterMap_cons, hsp] using ih hnd.2

theorem lookupA_innerPick {α : Type} {k : Str} {p : List (Str × α)}
    (hnd : (p.map Prod.fst).Nodup) {fk i : Str} {v : α}
    (hmem : (fk, v) ∈ p) (hsp : splitDunder fk = [k, i]) :
    lookupA i (innerPick k p) = some v := by
  apply lookupA_eq_some_of_mem (innerPick_keys_nodup k hnd)
  exact mem_innerPick.mpr ⟨fk, hmem, hsp⟩

theorem innerEq_comm {α : Type} [DecidableEq α] (m₁ m₂ : List (Str × α)) :
    innerEq m₁ m₂ = innerEq m₂ m₁ := by
  rw [innerEq, innerEq, Bool.and_comm]

/-! ### Inversion and construction lemmas for selections -/

theorem selInnerB_cons_inv {α : Type} [DecidableEq α] {ik : Str} {e : PEntry α}
    {rest : List (Str × PEntry α)} {m : List (Str × α)}
    (h : selInnerB ((ik, e) :: rest) m = true) :
    ∃ vs v ms, e = PEntry.vals vs ∧ m = (ik, v) :: ms ∧ v ∈ vs ∧
      selInnerB rest ms = true := by
  match e, m with
  | PEntry.nest _, [] => simp [selInnerB] at h
  | PEntry.nest _, _ :: _ => simp [selInnerB] at h
  | PEntry.vals vs, [] => simp [selInnerB] at h
  | PEntry.vals vs, (ik', v) :: ms =>
    simp only [selInnerB, Bool.and_eq_true, decide_eq_true_eq] at h
    exact ⟨vs, v, ms, rfl, by rw [h.1.1], h.1.2, h.2⟩

theorem selB_cons_inv {α : Type} [DecidableEq α] {k : Str} {e : PEntry α}
    {dd : List (Str × PEntry α)} {c : Cfg α} (h : selB ((k, e) :: dd) c = true) :
    ∃ it cs, c = (k, it) :: cs ∧ selB dd cs = true ∧
      ((∃ vs v, e = PEntry.vals vs ∧ it = CItem.scalar v ∧ v ∈ vs) ∨
       (∃ inner m, e = PEntry.nest inner ∧ it = CItem.nest m ∧
         selInnerB inner m = true)) := by
  match e, c with
  | PEntry.vals vs, [] => simp [selB] at h
  | PEntry.nest inner, [] => simp [selB] at h
  | PEntry.vals vs, (ck, CItem.scalar v) :: cs =>
    simp only [selB, Bool.and_eq_true, decide_eq_true_eq] at h
    exact ⟨CItem.scalar v, cs, by rw [h.1.1], h.2, Or.inl ⟨vs, v, rfl, rfl, h.1.2⟩⟩
  | PEntry.vals vs, (ck, CItem.nest m) :: cs => simp [selB] at h
  | PEntry.nest inner, (ck, CItem.scalar v) :: cs => simp [selB] at h
  | PEntry.nest inner, (ck, CItem.nest m) :: cs =>
    simp only [selB, Bool.and_eq_true, decide_eq_true_eq] at h
    exact ⟨CItem.nest m, cs, by rw [h.1.1], h.2, Or.inr ⟨inner, m, rfl, rfl, h.1.2⟩⟩

theorem selInnerB_keys {α : Type} [DecidableEq α] :
    ∀ {inner : List (Str × PEntry α)} {m : List (Str × α)},
      selInnerB inner m = true → m.map Prod.fst = inner.map Prod.fst := by
  intro inner
  induction inner with
  | nil => intro m h; match m with
    | [] => rfl
    | _ :: _ => simp [selInnerB] at h
  | cons hd tl ih =>
    intro m h
    obtain ⟨ik, e⟩ := hd
    obtain ⟨vs, v, ms, _, rfl, _, hrest⟩ := selInnerB_cons_inv h
    simp only [List.map_cons]
    rw [ih hrest]

theorem selInnerB_mem_fwd {α : Type} [DecidableEq α] :
    ∀ {inner : List (Str × PEntry α)} {m : List (Str × α)},
      selInnerB inner m = true → ∀ ik e, (ik, e) ∈ inner →
        ∃ v, (ik, v) ∈ m ∧ v ∈ e.getVals := by
  intro inner
  induction inner with
  | nil => intro m _ ik e hm; cases hm
  | cons hd tl ih =>
    intro m h ik e hm
    obtain ⟨ik₀, e₀⟩ := hd
    obtain ⟨vs, v, ms, he₀, rfl, hv, hrest⟩ := selInnerB_cons_inv h
    rcases List.mem_cons.mp hm with heq | htl
    · injection heq with h1 h2
      subst h1; subst h2; subst he₀
      exact ⟨v, List.mem_cons_self _ _, by simpa [PEntry.getVals] using hv⟩
    · obtain ⟨w, hw, hwv⟩ := ih hrest ik e htl
      exact ⟨w, List.mem_cons_of_mem _ hw, hwv⟩

theorem selInnerB_mem_bwd {α : Type} [DecidableEq α] :
    ∀ {inner : List (Str × PEntry α)} {m : List (Str × α)},
      selInnerB inner m = true → ∀ i w, (i, w) ∈ m →
        ∃ e, (i, e) ∈ inner ∧ w ∈ e.getVals := by
  intro inner
  induction inner with
  | nil => intro m h i w hm; match m with
    | [] => cases hm
    | _ :: _ => simp [selInnerB] at h
  | cons hd tl ih =>
    intro m h i w hm
    obtain ⟨ik₀, e₀⟩ := hd
    obtain ⟨vs, v, ms, he₀, rfl, hv, hrest⟩ := selInnerB_cons_inv h
    rcases List.mem_cons.mp hm with heq | htl
    · injection heq with h1 h2
      subst h1; subst h2; subst he₀
      exact ⟨PEntry.vals vs, List.mem_cons_self _ _, by simpa [PEntry.getVals]⟩
    · obtain ⟨e, he, hwe⟩ := ih hrest i w htl
      exact ⟨e, List.mem_cons_of_mem _ he, hwe⟩

theorem selB_keys {α : Type} [DecidableEq α] :
    ∀ {d : List (Str × PEntry α)} {c : Cfg α},
      selB d c = true → c.map Prod.fst = d.map Prod.fst := by
  intro d
  induction d with
  | nil => intro c h; match c with
    | [] => rfl
    | _ :: _ => simp [selB] at h
  | cons hd tl ih =>
    intro c h
    obtain ⟨k, e⟩ := hd
    obtain ⟨it, cs, rfl, hrest, _⟩ := selB_cons_inv h
    simp only [List.map_cons]
    rw [ih hrest]

theorem selB_vals_mem {α : Type} [DecidableEq α] :
    ∀ {d : List (Str × PEntry α)} {c : Cfg α}, selB d c = true →
      ∀ k vs, (k, PEntry.vals vs) ∈ d → ∃ v, (k, CItem.scalar v) ∈ c ∧ v ∈ vs := by
  intro d
  induction d with
  | nil => intro c _ k vs hm; cases hm
  | cons hd tl ih =>
    intro c h k vs hm
    obtain ⟨k₀, e₀⟩ := hd
    obtain ⟨it, cs, rfl, hrest, hcase⟩ := selB_cons_inv h
    rcases List.mem_cons.mp hm with heq | htl
    · injection heq with h1 h2
      subst h1; subst h2
      rcases hcase with ⟨vs', v, hv1, hv2, hv3⟩ | ⟨inner, m, hi1, _, _⟩
      · injection hv1 with hvs
        subst hvs; subst hv2
        exact ⟨v, List.mem_cons_self _ _, hv3⟩
      · cases hi1
    · obtain ⟨v, hv, hvv⟩ := ih hrest k vs htl
      exact ⟨v, List.mem_cons_of_mem _ hv, hvv⟩

theorem selB_nest_mem {α : Type} [DecidableEq α] :
    ∀ {d : List (Str × PEntry α)} {c : Cfg α}, selB d c = true →
      ∀ k inner, (k, PEntry.nest inner) ∈ d →
        ∃ m, (k, CItem.nest m) ∈ c ∧ selInnerB inner m = true := by
  intro d
  induction d with
  | nil => intro c _ k inner hm; cases hm
  | cons hd tl ih =>
    intro c h k inner hm
    obtain ⟨k₀, e₀⟩ := hd
    obtain ⟨it, cs, rfl, hrest, hcase⟩ := selB_cons_inv h
    rcases List.mem_cons.mp hm with heq | htl
    · injection heq with h1 h2
      subst h1; subst h2
      rcases hcase with ⟨vs', v, hv1, _, _⟩ | ⟨inner', m, hi1, hi2, hi3⟩
      · cases hv1
      · injection hi1 with hin
        subst hin; subst hi2
        exact ⟨m, List.mem_cons_self _ _, hi3⟩
    · obtain ⟨m, hm2, hms⟩ := ih hrest k inner htl
      exact ⟨m, List.mem_cons_of_mem _ hm2, hms⟩

theorem selB_entry {α : Type} [DecidableEq α] :
    ∀ {d : List (Str × PEntry α)} {c : Cfg α}, selB d c = true →
      ∀ k it, (k, it) ∈ c →
        (∃ vs v, (k, PEntry.vals vs) ∈ d ∧ it = CItem.scalar v ∧ v ∈ vs) ∨
        (∃ inner m, (k, PEntry.nest inner) ∈ d ∧ it = CItem.nest m ∧
          selInnerB inner m = true) := by
  intro d
  induction d with
  | nil => intro c h k it hm; match c with
    | [] => cases hm
    | _ :: _ => simp [selB] at h
  | cons hd tl ih =>
    intro c h k it hm
    obtain ⟨k₀, e₀⟩ := hd
    obtain ⟨it₀, cs, rfl, hrest, hcase⟩ := selB_cons_inv h
    rcases List.mem_cons.mp hm with heq | htl
    · injection heq with h1 h2
      subst h1; subst h2
      rcases hcase with ⟨vs, v, hv1, hv2, hv3⟩ | ⟨inner, m, hi1, hi2, hi3⟩
      · subst hv1; subst hv2
        exact Or.inl ⟨vs, v, List.mem_cons_self _ _, rfl, hv3⟩
      · subst hi1; subst hi2
        exact Or.inr ⟨inner, m, List.mem_cons_self _ _, rfl, hi3⟩
    · rcases ih hrest k it htl with ⟨vs, v, hm2, h2, h3⟩ | ⟨inner, m, hm2, h2, h3⟩
      · exact Or.inl ⟨vs, v, List.mem_cons_of_mem _ hm2, h2, h3⟩
      · exact Or.inr ⟨inner, m, List.mem_cons_of_mem _ hm2, h2, h3⟩

theorem exists_selInner {α : Type} [DecidableEq α] (R : Str → α → Prop) :
    ∀ (inner : List (Str × PEntry α)),
      (∀ ikv ∈ inner, ∃ vs, ikv.2 = PEntry.vals vs ∧ ∃ v, v ∈ vs ∧ R ikv.1 v) →
      ∃ m, selInnerB inner m = true ∧ ∀ i v, (i, v) ∈ m → R i v := by
  intro inner
  induction inner with
  | nil => intro _; exact ⟨[], rfl, fun i v hm => absurd hm (List.not_mem_nil _)⟩
  | cons hd tl ih =>
    intro h
    obtain ⟨ik, e⟩ := hd
    obtain ⟨vs, he, v, hv, hr⟩ := h (ik, e) (List.mem_cons_self _ _)
    obtain ⟨ms, hms, hR⟩ := ih (fun ikv hm => h ikv (List.mem_cons_of_mem _ hm))
    refine ⟨(ik, v) :: ms, ?_, ?_⟩
    · subst he
      simp only [selInnerB, Bool.and_eq_true, decide_eq_true_eq]
      exact ⟨⟨trivial, hv⟩, hms⟩
    · intro i w hm
      rcases List.mem_cons.mp hm with heq | htl
      · injection heq with h1 h2
        subst h1; subst h2
        exact hr
      · exact hR i w htl

theorem exists_sel {α : Type} [DecidableEq α] (Rt : Str → α → Prop)
    (Rn : Str → Str → α → Prop) :
    ∀ (d : List (Str × PEntry α)),
      (∀ k vs, (k, PEntry.vals vs) ∈ d → ∃ v, v ∈ vs ∧ Rt k v) →
      (∀ k inner, (k, PEntry.nest inner) ∈ d → ∀ ikv ∈ inner,
        ∃ vs, ikv.2 = PEntry.vals vs ∧ ∃ v, v ∈ vs ∧ Rn k ikv.1 v) →
      ∃ c, selB d c = true ∧
        (∀ k v, (k, CItem.scalar v) ∈ c → Rt k v) ∧
        (∀ k m, (k, CItem.nest m) ∈ c → ∀ i v, (i, v) ∈ m → Rn k i v) := by
  intro d
  induction d with
  | nil =>
    intro _ _
    exact ⟨[], rfl, fun k v hm => absurd hm (List.not_mem_nil _),
      fun k m hm => absurd hm (List.not_mem_nil _)⟩
  | cons hd tl ih =>
    intro hv hn
    obtain ⟨k₀, e₀⟩ := hd
    obtain ⟨cs, hcs, hRt, hRn⟩ := ih
      (fun k vs hm => hv k vs (List.mem_cons_of_mem _ hm))
      (fun k inner hm => hn k inner (List.mem_cons_of_mem _ hm))
    match e₀ with
    | PEntry.vals vs =>
      obtain ⟨v, hvv, hrt⟩ := hv k₀ vs (List.mem_cons_self _ _)
      refine ⟨(k₀, CItem.scalar v) :: cs, ?_, ?_, ?_⟩
      · simp only [selB, Bool.and_eq_true, decide_eq_true_eq]
        exact ⟨⟨trivial, hvv⟩, hcs⟩
      · intro k w hm
        rcases List.mem_cons.mp hm with heq | htl
        · injection heq with h1 h2
          injection h2 with h2
          subst h1; subst h2
          exact hrt
        · exact hRt k w htl
      · intro k m hm
        rcases List.mem_cons.mp hm with heq | htl
        · injection heq with h1 h2; cases h2
        · exact hRn k m htl
    | PEntry.nest inner =>
      obtain ⟨m, hmsel, hmR⟩ := exists_selInner (Rn k₀) inner
        (hn k₀ inner (List.mem_cons_self _ _))
      refine ⟨(k₀, CItem.nest m) :: cs, ?_, ?_, ?_⟩
      · simp only [selB, Bool.and_eq_true, decide_eq_true_eq]
        exact ⟨⟨trivial, hmsel⟩, hcs⟩
      · intro k w hm
        rcases List.mem_cons.mp hm with heq | htl
        · injection heq with h1 h2; cases h2
        · exact hRt k w htl
      · intro k m' hm
        rcases List.mem_cons.mp hm with heq | htl
        · injection heq with h1 h2
          injection h2 with h2
          subst h1; subst h2
          exact hmR
        · exact hRn k m' htl

theorem exists_corr_choice {α : Type} [DecidableEq α] (c : Cfg α) :
    ∀ (l : List (Str × List α)),
      (∀ fk vs, (fk, vs) ∈ l → ∃ v, v ∈ vs ∧ pickOf c fk = some v) →
      ∃ p, corrB l p = true ∧ ∀ fk v, (fk, v) ∈ p → pickOf c fk = some v := by
  intro l
  induction l with
  | nil => intro _; exact ⟨[], rfl, fun fk v hm => absurd hm (List.not_mem_nil _)⟩
  | cons hd tl ih =>
    intro h
    obtain ⟨fk, vs⟩ := hd
    obtain ⟨v, hv, hpick⟩ := h fk vs (List.mem_cons_self _ _)
    obtain ⟨p, hp, hagree⟩ := ih (fun fk' vs' hm => h fk' vs' (List.mem_cons_of_mem _ hm))
    refine ⟨(fk, v) :: p, ?_, ?_⟩
    · simp only [corrB, Bool.and_eq_true, decide_eq_true_eq]
      exact ⟨⟨trivial, hv⟩, hp⟩
    · intro fk' v' hm
      rcases List.mem_cons.mp hm with heq | htl
      · injection heq with h1 h2
        subst h1; subst h2
        exact hpick
      · exact hagree fk' v' htl

/-! ### Introduction and elimination for the embedded dict equality -/

theorem itemEq_scalar_inv {α : Type} [DecidableEq α] {a : α} {it : CItem α}
    (h : itemEq (CItem.scalar a) it = true) : it = CItem.scalar a := by
  match it with
  | CItem.scalar b =>
    simp only [itemEq, decide_eq_true_eq] at h
    rw [h]
  | CItem.nest m => simp [itemEq] at h

theorem itemEq_nest_inv {α : Type} [DecidableEq α] {m : List (Str × α)} {it : CItem α}
    (h : itemEq (CItem.nest m) it = true) :
    ∃ m₂, it = CItem.nest m₂ ∧ innerEq m m₂ = true := by
  match it with
  | CItem.scalar b => simp [itemEq] at h
  | CItem.nest m₂ => exact ⟨m₂, rfl, h⟩

theorem innerEq_props {α : Type} [DecidableEq α] {m₁ m₂ : List (Str × α)}
    (h : innerEq m₁ m₂ = true) :
    (∀ i v, (i, v) ∈ m₁ → lookupA i m₂ = some v) ∧
    (∀ i v, (i, v) ∈ m₂ → lookupA i m₁ = some v) := by
  simp only [innerEq, Bool.and_eq_true, List.all_eq_true, decide_eq_true_eq] at h
  exact ⟨fun i v hm => h.1 (i, v) hm, fun i v hm => h.2 (i, v) hm⟩

theorem innerEq_intro {α : Type} [DecidableEq α] {m₁ m₂ : List (Str × α)}
    (h₁ : ∀ i v, (i, v) ∈ m₁ → lookupA i m₂ = some v)
    (h₂ : ∀ i v, (i, v) ∈ m₂ → lookupA i m₁ = some v) :
    innerEq m₁ m₂ = true := by
  simp only [innerEq, Bool.and_eq_true, List.all_eq_true, decide_eq_true_eq]
  exact ⟨fun kv hm => h₁ kv.1 kv.2 (by rw [Prod.mk.eta]; exact hm),
    fun kv hm => h₂ kv.1 kv.2 (by rw [Prod.mk.eta]; exact hm)⟩

theorem dictEq_props {α : Type} [DecidableEq α] {c₁ c₂ : Cfg α}
    (h : dictEq c₁ c₂ = true) :
    (∀ k it, (k, it) ∈ c₁ → ∃ it₂, lookupA k c₂ = some it₂ ∧ itemEq it it₂ = true) ∧
    (∀ k it, (k, it) ∈ c₂ → ∃ it₂, lookupA k c₁ = some it₂ ∧ itemEq it it₂ = true) := by
  simp only [dictEq, Bool.and_eq_true, List.all_eq_true] at h
  constructor
  · intro k it hm
    have hx := h.1 (k, it) hm
    rcases hc : lookupA k c₂ with _ | it₂
    · rw [hc] at hx; simp at hx
    · rw [hc] at hx; exact ⟨it₂, rfl, hx⟩
  · intro k it hm
    have hx := h.2 (k, it) hm
    rcases hc : lookupA k c₁ with _ | it₂
    · rw [hc] at hx; simp at hx
    · rw [hc] at hx; exact ⟨it₂, rfl, hx⟩

theorem dictEq_intro {α : Type} [DecidableEq α] {c₁ c₂ : Cfg α}
    (h₁ : ∀ k it, (k, it) ∈ c₁ → ∃ it₂, lookupA k c₂ = some it₂ ∧ itemEq it it₂ = true)
    (h₂ : ∀ k it, (k, it) ∈ c₂ → ∃ it₂, lookupA k c₁ = some it₂ ∧ itemEq it it₂ = true) :
    dictEq c₁ c₂ = true := by
  simp only [dictEq, Bool.and_eq_true, List.all_eq_true]
  constructor
  · intro kv hm
    obtain ⟨it₂, hl, hit⟩ := h₁ kv.1 kv.2 (by rw [Prod.mk.eta]; exact hm)
    rw [hl]
    exact hit
  · intro kv hm
    obtain ⟨it₂, hl, hit⟩ := h₂ kv.1 kv.2 (by rw [Prod.mk.eta]; exact hm)
    rw [hl]
    exact hit

/-! ### The central bridge: agreement between a selection and a product
element characterises dict equality of the un-flattened output -/

theorem vals_not_dunder {α : Type} {d : List (Str × PEntry α)} (W : WFCtx d)
    {k : Str} {vs : List α} (h : (k, PEntry.vals vs) ∈ d) : k ∉ dunderKeys d := by
  intro hc
  obtain ⟨e, he, hn⟩ := mem_dunderKeys.mp hc
  have := assoc_value_unique W.keysNodup h he
  rw [← this] at hn
  simp [PEntry.isNest] at hn

theorem pickOf_vals {α : Type} [DecidableEq α] {c : Cfg α}
    (hcnd : (c.map Prod.fst).Nodup) {k : Str} {v : α}
    (hsp : splitDunder k = [k]) (hm : (k, CItem.scalar v) ∈ c) :
    pickOf c k = some v := by
  simp only [pickOf, hsp, lookupA_eq_some_of_mem hcnd hm]

theorem pickOf_nest {α : Type} [DecidableEq α] {c : Cfg α}
    (hcnd : (c.map Prod.fst).Nodup) {k ik fk : Str} {m : List (Str × α)}
    (hsp : splitDunder fk = [k, ik]) (hm : (k, CItem.nest m) ∈ c) :
    pickOf c fk = lookupA ik m := by
  simp only [pickOf, hsp, lookupA_eq_some_of_mem hcnd hm]

theorem exists_val_of_key_mem {β : Type} {p : List (Str × β)} {k : Str}
    (h : k ∈ p.map Prod.fst) : ∃ v, (k, v) ∈ p := by
  obtain ⟨pr, hm, he⟩ := List.mem_map.mp h
  refine ⟨pr.2, ?_⟩
  rw [← he, Prod.mk.eta]
  exact hm

theorem inner_match {α : Type} [DecidableEq α] {d : List (Str × PEntry α)} (W : WFCtx d)
    {l : List (Str × List α)} (hl : ∀ x : Str × List α, x ∈ l ↔ x ∈ flatList d)
    {c : Cfg α} (hcnd : (c.map Prod.fst).Nodup)
    {p : List (Str × α)} (hpk : p.map Prod.fst = l.map Prod.fst)
    (hpnd : (p.map Prod.fst).Nodup)
    (hagr : ∀ fk v, (fk, v) ∈ p → pickOf c fk = some v)
    {k : Str} {inner : List (Str × PEntry α)} {m : List (Str × α)}
    (hd : (k, PEntry.nest inner) ∈ d) (hc : (k, CItem.nest m) ∈ c)
    (hsel : selInnerB inner m = true) :
    innerEq m (innerPick k p) = true := by
  have hmnd : (m.map Prod.fst).Nodup := by
    rw [selInnerB_keys hsel]
    exact (W.innerWF k inner hd).1
  apply innerEq_intro
  · intro i w hiw
    obtain ⟨e, hie, hwe⟩ := selInnerB_mem_bwd hsel i w hiw
    have hie2 := (W.innerWF k inner hd).2 (i, e) hie
    have hflat : (flatKey k i, e.getVals) ∈ flatList d :=
      mem_flatList.mpr (Or.inr ⟨k, inner, (i, e), hd, hie, rfl, rfl⟩)
    have hkeys : flatKey k i ∈ p.map Prod.fst := by
      rw [hpk]
      exact List.mem_map.mpr ⟨(flatKey k i, e.getVals), (hl _).mpr hflat, rfl⟩
    obtain ⟨v', hv'mem⟩ := exists_val_of_key_mem hkeys
    have hpick := hagr _ v' hv'mem
    rw [pickOf_nest hcnd hie2.2.1 hc] at hpick
    have hwm : lookupA i m = some w := lookupA_eq_some_of_mem hmnd hiw
    rw [hwm] at hpick
    injection hpick with hpick
    rw [← hpick] at hv'mem
    exact lookupA_innerPick hpnd hv'mem hie2.2.1
  · intro i w hiw
    obtain ⟨fk', hfk'mem, hsp'⟩ := mem_innerPick.mp hiw
    have hpick := hagr fk' w hfk'mem
    rw [pickOf_nest hcnd hsp' hc] at hpick
    exact hpick

theorem dict_of_agrees {α : Type} [DecidableEq α] {d : List (Str × PEntry α)} (W : WFCtx d)
    {l : List (Str × List α)} (hl : ∀ x : Str × List α, x ∈ l ↔ x ∈ flatList d)
    {c : Cfg α} (hsel : selB d c = true)
    {p : List (Str × α)} (hpk : p.map Prod.fst = l.map Prod.fst)
    (hpnd : (p.map Prod.fst).Nodup)
    (hpval : ∀ fk v, (fk, v) ∈ p → ∃ vs, (fk, vs) ∈ l ∧ v ∈ vs)
    (hagr : ∀ fk v, (fk, v) ∈ p → pickOf c fk = some v) :
    dictEq c (uPure (dunderKeys d) p) = true := by
  have hcnd : (c.map Prod.fst).Nodup := by
    rw [selB_keys hsel]; exact W.keysNodup
  have hdknd : (dunderKeys d).Nodup := dunderKeys_nodup W.keysNodup
  apply dictEq_intro
  · intro k it hm
    rcases selB_entry hsel k it hm with ⟨vs, v, hd, hit, hv⟩ | ⟨inner, m, hd, hit, hms⟩
    · have hsp : splitDunder k = [k] := W.topSplit (k, PEntry.vals vs) hd
      have hknotdk : k ∉ dunderKeys d := vals_not_dunder W hd
      have hflat : (k, vs) ∈ flatList d := mem_flatList.mpr (Or.inl hd)
      have hkeys : k ∈ p.map Prod.fst := by
        rw [hpk]
        exact List.mem_map.mpr ⟨(k, vs), (hl _).mpr hflat, rfl⟩
      obtain ⟨v', hv'mem⟩ := exists_val_of_key_mem hkeys
      have hmsc : (k, CItem.scalar v) ∈ c := by rw [← hit]; exact hm
      have hpick := hagr k v' hv'mem
      rw [pickOf_vals hcnd hsp hmsc] at hpick
      injection hpick with hveq
      refine ⟨CItem.scalar v', ?_, ?_⟩
      · rw [uPure_lookup_top p hknotdk]
        exact lookupA_topPicks hpnd hv'mem hsp
      · rw [hit, ← hveq]
        simp [itemEq]
    · have hkdk : k ∈ dunderKeys d := mem_dunderKeys.mpr ⟨PEntry.nest inner, hd, rfl⟩
      have hmne : (k, CItem.nest m) ∈ c := by rw [← hit]; exact hm
      refine ⟨CItem.nest (innerPick k p), uPure_lookup_dk hdknd p hkdk, ?_⟩
      rw [hit]
      exact inner_match W hl hcnd hpk hpnd hagr hd hmne hms
  · intro k it hm
    rcases List.mem_append.mp hm with hm | hm
    · obtain ⟨k₀, hk₀, heq⟩ := List.mem_map.mp hm
      have h1 : k₀ = k := congrArg Prod.fst heq
      have h2 : CItem.nest (innerPick k₀ p) = it := congrArg Prod.snd heq
      rw [h1] at h2
      obtain ⟨e, hed, hen⟩ := mem_dunderKeys.mp (h1 ▸ hk₀)
      match e, hen with
      | PEntry.nest inner, _ =>
        obtain ⟨m, hmc, hmsel⟩ := selB_nest_mem hsel k inner hed
        refine ⟨CItem.nest m, lookupA_eq_some_of_mem hcnd hmc, ?_⟩
        rw [← h2]
        show innerEq (innerPick k p) m = true
        rw [innerEq_comm]
        exact inner_match W hl hcnd hpk hpnd hagr hed hmc hmsel
    · obtain ⟨fk, v, hpmem, hsp, heq⟩ := mem_topPicks.mp hm
      have h1 : k = fk := congrArg Prod.fst heq
      have h2 : it = CItem.scalar v := congrArg Prod.snd heq
      obtain ⟨vs, hvl, hvvs⟩ := hpval fk v hpmem
      have hflat : (fk, vs) ∈ flatList d := (hl _).mp hvl
      rcases flat_origin W hflat with ⟨_, hvd, _⟩ | ⟨k', ik', e', inner', hsp', _, _, _, _, _⟩
      · obtain ⟨w, hwc, hwvs⟩ := selB_vals_mem hsel fk vs hvd
        have hpick := hagr fk v hpmem
        rw [pickOf_vals hcnd hsp hwc] at hpick
        injection hpick with hweq
        refine ⟨CItem.scalar w, ?_, ?_⟩
        · rw [h1]
          exact lookupA_eq_some_of_mem hcnd hwc
        · rw [h2, hweq]
          simp [itemEq]
      · rw [hsp] at hsp'
        cases hsp'

theorem agrees_of_dict {α : Type} [DecidableEq α] {d : List (Str × PEntry α)} (W : WFCtx d)
    {l : List (Str × List α)} (hl : ∀ x : Str × List α, x ∈ l ↔ x ∈ flatList d)
    {c : Cfg α} (hsel : selB d c = true)
    {p : List (Str × α)} (hpnd : (p.map Prod.fst).Nodup)
    (hpval : ∀ fk v, (fk, v) ∈ p → ∃ vs, (fk, vs) ∈ l ∧ v ∈ vs)
    (hdict : dictEq c (uPure (dunderKeys d) p) = true) :
    ∀ fk v, (fk, v) ∈ p → pickOf c fk = some v := by
  intro fk v hm
  have hdknd : (dunderKeys d).Nodup := dunderKeys_nodup W.keysNodup
  obtain ⟨vs, hvl, hvvs⟩ := hpval fk v hm
  have hflat := (hl _).mp hvl
  rcases flat_origin W hflat with ⟨hsp, hvd, hndk⟩ |
    ⟨k, ik, e, inner, hsp, hfk, hnd2, hik, hvs, hkdk⟩
  · have hlook : lookupA fk (uPure (dunderKeys d) p) = some (CItem.scalar v) := by
      rw [uPure_lookup_top p hndk]
      exact lookupA_topPicks hpnd hm hsp
    have hmem := mem_of_lookupA_eq_some hlook
    obtain ⟨it₂, hlc, hit⟩ := (dictEq_props hdict).2 fk (CItem.scalar v) hmem
    rw [itemEq_scalar_inv hit] at hlc
    simp only [pickOf, hsp, hlc]
  · have hlook : lookupA k (uPure (dunderKeys d) p) =
        some (CItem.nest (innerPick k p)) := uPure_lookup_dk hdknd p hkdk
    have hmem := mem_of_lookupA_eq_some hlook
    obtain ⟨it₂, hlc, hit⟩ := (dictEq_props hdict).2 k _ hmem
    obtain ⟨mc, hit₂, hinner⟩ := itemEq_nest_inv hit
    rw [hit₂] at hlc
    have hpmem : (ik, v) ∈ innerPick k p := mem_innerPick.mpr ⟨fk, hm, hsp⟩
    have hlmc : lookupA ik mc = some v := (innerEq_props hinner).1 ik v hpmem
    simp only [pickOf, hsp, hlc, hlmc]

theorem eq_of_agree {α : Type} [DecidableEq α] {l : List (Str × List α)}
    (hlnd : (l.map Prod.fst).Nodup) {c : Cfg α}
    {p₁ p₂ : List (Str × α)} (h₁ : corrB l p₁ = true) (h₂ : corrB l p₂ = true)
    (ha₁ : ∀ fk v, (fk, v) ∈ p₁ → pickOf c fk = some v)
    (ha₂ : ∀ fk v, (fk, v) ∈ p₂ → pickOf c fk = some v) : p₁ = p₂ := by
  apply eq_of_same_keys_of_agree ((corrB_keys h₁).trans (corrB_keys h₂).symm)
  · rw [corrB_keys h₁]; exact hlnd
  · intro fk v₁ v₂ hm₁ hm₂
    have e₁ := ha₁ fk v₁ hm₁
    have e₂ := ha₂ fk v₂ hm₂
    exact Option.some.inj (e₁.symm.trans e₂)

theorem sel_pick_total {α : Type} [DecidableEq α] {d : List (Str × PEntry α)}
    (W : WFCtx d) {c : Cfg α} (hsel : selB d c = true) :
    ∀ fk vs, (fk, vs) ∈ flatList d → ∃ v, v ∈ vs ∧ pickOf c fk = some v := by
  intro fk vs hflat
  have hcnd : (c.map Prod.fst).Nodup := by rw [selB_keys hsel]; exact W.keysNodup
  rcases flat_origin W hflat with ⟨hsp, hvd, _⟩ |
    ⟨k, ik, e, inner, hsp, hfk, hnd2, hik, hvs, _⟩
  · obtain ⟨v, hvc, hvvs⟩ := selB_vals_mem hsel fk vs hvd
    exact ⟨v, hvvs, pickOf_vals hcnd hsp hvc⟩
  · obtain ⟨m, hmc, hmsel⟩ := selB_nest_mem hsel k inner hnd2
    obtain ⟨v, hvm, hvvs⟩ := selInnerB_mem_fwd hmsel ik e hik
    have hmnd : (m.map Prod.fst).Nodup := by
      rw [selInnerB_keys hmsel]
      exact (W.innerWF k inner hnd2).1
    refine ⟨v, by rw [hvs]; exact hvvs, ?_⟩
    rw [pickOf_nest hcnd hsp hmc]
    exact lookupA_eq_some_of_mem hmnd hvm

theorem agrees_of_mem_rel {α : Type} [DecidableEq α] {d : List (Str × PEntry α)}
    (W : WFCtx d) {l : List (Str × List α)}
    (hl : ∀ x : Str × List α, x ∈ l ↔ x ∈ flatList d)
    {p : List (Str × α)} (hpnd : (p.map Prod.fst).Nodup)
    (hpval : ∀ fk v, (fk, v) ∈ p → ∃ vs, (fk, vs) ∈ l ∧ v ∈ vs)
    {c : Cfg α} (hsel : selB d c = true)
    (hRt : ∀ k v, (k, CItem.scalar v) ∈ c → (k, v) ∈ p)
    (hRn : ∀ k m, (k, CItem.nest m) ∈ c → ∀ i v, (i, v) ∈ m → (flatKey k i, v) ∈ p) :
    ∀ fk v, (fk, v) ∈ p → pickOf c fk = some v := by
  intro fk v hm
  have hcnd : (c.map Prod.fst).Nodup := by rw [selB_keys hsel]; exact W.keysNodup
  obtain ⟨vs, hvl, hvvs⟩ := hpval fk v hm
  rcases flat_origin W ((hl _).mp hvl) with ⟨hsp, hvd, _⟩ |
    ⟨k, ik, e, inner, hsp, hfk, hnd2, hik, hvs, _⟩
  · obtain ⟨w, hwc, _⟩ := selB_vals_mem hsel fk vs hvd
    have hwp : (fk, w) ∈ p := hRt fk w hwc
    have hwv : w = v := assoc_value_unique hpnd hwp hm
    rw [pickOf_vals hcnd hsp hwc, hwv]
  · obtain ⟨m, hmc, hmsel⟩ := selB_nest_mem hsel k inner hnd2
    obtain ⟨w, hwm, _⟩ := selInnerB_mem_fwd hmsel ik e hik
    have hwp : (fk, w) ∈ p := by
      rw [hfk]
      exact hRn k m hmc ik w hwm
    have hwv : w = v := assoc_value_unique hpnd hwp hm
    have hmnd : (m.map Prod.fst).Nodup := by
      rw [selInnerB_keys hmsel]
      exact (W.innerWF k inner hnd2).1
    rw [pickOf_nest hcnd hsp hmc, lookupA_eq_some_of_mem hmnd hwm, hwv]

theorem countP_eq_one_of_unique {β : Type} {lst : List β} (q : β → Bool)
    (hnd : lst.Nodup) (x : β) (hx : x ∈ lst) (hqx : q x = true)
    (huniq : ∀ y ∈ lst, q y = true → y = x) : lst.countP q = 1 := by
  rw [List.countP_eq_length_filter]
  have hfil : lst.filter q = [x] := by
    apply nodup_singleton_of_all_eq (hnd.filter q)
    · exact List.mem_filter.mpr ⟨hx, hqx⟩
    · intro y hy
      have hy2 := List.mem_filter.mp hy
      exact huniq y hy2.1 hy2.2
  rw [hfil]
  rfl

theorem eq_vals_of_not_nest {α : Type} {e : PEntry α} (h : PEntry.isNest e = false) :
    ∃ vs, e = PEntry.vals vs := by
  match e with
  | PEntry.vals vs => exact ⟨vs, rfl⟩
  | PEntry.nest _ => simp [PEntry.isNest] at h

theorem innerPick_keys_perm {α : Type} [DecidableEq α] {d : List (Str × PEntry α)}
    (W : WFCtx d) {l : List (Str × List α)}
    (hl : ∀ x : Str × List α, x ∈ l ↔ x ∈ flatList d)
    (hlnd : (l.map Prod.fst).Nodup)
    {p : List (Str × α)} (hcorr : corrB l p = true)
    {k : Str} {inner : List (Str × PEntry α)} (hd : (k, PEntry.nest inner) ∈ d) :
    ((innerPick k p).map Prod.fst).Perm (inner.map Prod.fst) := by
  have hpk := corrB_keys hcorr
  have hpnd : (p.map Prod.fst).Nodup := by rw [hpk]; exact hlnd
  rw [List.perm_ext_iff_of_nodup (innerPick_keys_nodup k hpnd) (W.innerWF k inner hd).1]
  intro i
  constructor
  · intro hi
    obtain ⟨fk, v, hm, hsp⟩ := mem_keys_innerPick.mp hi
    obtain ⟨vs, hvl, _⟩ := corrB_mem_values hcorr fk v hm
    rcases flat_origin W ((hl _).mp hvl) with ⟨hsp1, _, _⟩ |
      ⟨k₂, ik₂, e₂, inner₂, hsp2, hfk2, hd2, hik2, _, _⟩
    · rw [hsp] at hsp1
      simp at hsp1
    · have heq : ([k, i] : List Str) = [k₂, ik₂] := hsp.symm.trans hsp2
      injection heq with hk2 heq2
      injection heq2 with hik2eq
      rw [← hk2] at hd2
      have hinner2 : PEntry.nest inner₂ = PEntry.nest inner :=
        assoc_value_unique W.keysNodup hd2 hd
      injection hinner2 with hinner2
      rw [← hik2eq, hinner2] at hik2
      exact List.mem_map.mpr ⟨(i, e₂), hik2, rfl⟩
  · intro hi
    obtain ⟨⟨ik, e⟩, hike, hik⟩ := List.mem_map.mp hi
    simp only at hik
    rw [← hik]
    have hflat : (flatKey k ik, e.getVals) ∈ flatList d :=
      mem_flatList.mpr (Or.inr ⟨k, inner, (ik, e), hd, hike, rfl, rfl⟩)
    have hkmem : flatKey k ik ∈ p.map Prod.fst := by
      rw [hpk]
      exact List.mem_map.mpr ⟨(flatKey k ik, e.getVals), (hl _).mpr hflat, rfl⟩
    obtain ⟨v, hv⟩ := exists_val_of_key_mem hkmem
    have hsp := ((W.innerWF k inner hd).2 (ik, e) hike).2.1
    exact mem_keys_innerPick.mpr ⟨flatKey k ik, v, hv, hsp⟩

/-! ### C3: characterisation of the produced grid -/

/-- C3, counterexample: for the one-level-nested configuration
`{"a_": {"x": [1,2]}, "a": {"_x": [3,4]}}` (no key contains the reserved
separator), the two flattened keys collide on the string `a___x`, the
second dict insertion overwrites the first, and the combination
`{"a_": {"x": 1}, "a": {"_x": 3}}` — a valid choice of one candidate per
slot — appears zero times in the output instead of exactly once. -/
theorem C3_counterexample :
    selB [(['a', '_'], PEntry.nest [(['x'], PEntry.vals [(1 : Int), 2])]),
          (['a'], PEntry.nest [(['_', 'x'], PEntry.vals [(3 : Int), 4])])]
        [(['a', '_'], CItem.nest [(['x'], (1 : Int))]),
         (['a'], CItem.nest [(['_', 'x'], (3 : Int))])] = true ∧
    nested_parameter_grid
        [(['a', '_'], PEntry.nest [(['x'], PEntry.vals [(1 : Int), 2])]),
         (['a'], PEntry.nest [(['_', 'x'], PEntry.vals [(3 : Int), 4])])] =
      .ok [[(['a', '_'], CItem.nest []), (['a'], CItem.nest [(['_', 'x'], (3 : Int))])],
           [(['a', '_'], CItem.nest []), (['a'], CItem.nest [(['_', 'x'], (4 : Int))])]] ∧
    List.countP
        (fun c2 => dictEq
          [(['a', '_'], CItem.nest [(['x'], (1 : Int))]),
           (['a'], CItem.nest [(['_', 'x'], (3 : Int))])] c2)
        [[(['a', '_'], CItem.nest []), (['a'], CItem.nest [(['_', 'x'], (3 : Int))])],
         [(['a', '_'], CItem.nest []), (['a'], CItem.nest [(['_', 'x'], (4 : Int))])]] = 0 :=
  ⟨by decide, by decide, by decide⟩

/-- C3 (amended): (flat half) for every configuration description with no
nested mappings, `nested_parameter_grid` returns the plain Cartesian
product, whose cardinality is the product of the per-key candidate counts;
(nested half) for every configuration with exactly one level of nesting
that is well-formed in the sense of `wfB` — distinct keys at every level,
no key containing the reserved separator, every flattened key splitting
back into exactly its two components, flattened keys pairwise distinct
(ruling out the collision of the counterexample), and duplicate-free
candidate lists — the expansion succeeds, every combination of one
candidate per (top-level or nested) slot appears exactly once in the
output up to Python dict equality, nothing else appears, and every output
item's nested sub-mapping carries exactly the nested keys of the input. -/
theorem C3_grid_characterisation {α : Type} [DecidableEq α] :
    (∀ d : List (Str × PEntry α),
      d.all (fun kv => !kv.2.isNest) = true →
      ∃ g, nested_parameter_grid d = .ok g ∧
        g.length = (d.map (fun kv => kv.2.getVals.length)).prod) ∧
    (∀ d : List (Str × PEntry α),
      d.any (fun kv => kv.2.isNest) = true → wfB d = true →
      ∃ g, nested_parameter_grid d = .ok g ∧
        (∀ c, selB d c = true → g.countP (fun c2 => dictEq c c2) = 1) ∧
        (∀ c2 ∈ g, ∃ c, selB d c = true ∧ dictEq c c2 = true) ∧
        (∀ c2 ∈ g, ∀ k inner, (k, PEntry.nest inner) ∈ d →
          ∃ m, lookupA k c2 = some (CItem.nest m) ∧
            (m.map Prod.fst).Perm (inner.map Prod.fst))) := by
  constructor
  · intro d hflat
    have hany : d.any (fun kv => kv.2.isNest) = false := by
      rw [List.any_eq_false]
      intro kv hm
      have := List.all_eq_true.mp hflat kv hm
      simpa using this
    have hrun : nested_parameter_grid d =
        .ok ((parameterGrid (d.map (fun kv => (kv.1, kv.2.getVals)))).map
          (fun p => p.map (fun kv => (kv.1, CItem.scalar kv.2)))) := by
      unfold nested_parameter_grid
      rw [hany]
      rfl
    refine ⟨_, hrun, ?_⟩
    rw [List.length_map, parameterGrid, gridProduct_length]
    have hperm := List.perm_insertionSort
      (fun x y : Str × List α => strLE x.1 y.1 = true)
      (d.map (fun kv => (kv.1, kv.2.getVals)))
    rw [(hperm.map (fun kv : Str × List α => kv.2.length)).prod_eq, List.map_map]
    rfl
  · intro d hnest hwf
    have W := wfCtx_of_wfB hwf
    have hnosep : d.any (fun kv => hasDunder kv.1) = false := by
      rw [List.any_eq_false]
      intro kv hm
      simp [hasDunder, W.topSplit kv hm]
    have hsh : ∀ kv ∈ d, deepB kv.2 = false := by
      intro kv hm
      cases hkv : kv.2 with
      | vals vs => rfl
      | nest inner =>
        have hdm : (kv.1, PEntry.nest inner) ∈ d := by
          rw [← hkv, Prod.mk.eta]; exact hm
        simp only [deepB, List.any_eq_false]
        intro ikv hik
        simp [((W.innerWF kv.1 inner hdm).2 ikv hik).1]
    have hfl := flattenLoop_top d hsh W.flatNodup
    have hperm : (List.insertionSort (fun x y : Str × List α => strLE x.1 y.1 = true)
        (flatList d)).Perm (flatList d) := List.perm_insertionSort _ _
    set l := List.insertionSort (fun x y : Str × List α => strLE x.1 y.1 = true)
      (flatList d) with hldef
    have hl : ∀ x : Str × List α, x ∈ l ↔ x ∈ flatList d := fun x => hperm.mem_iff
    have hlnd : (l.map Prod.fst).Nodup :=
      ((hperm.map Prod.fst).nodup_iff).mpr W.flatNodup
    have hdknd := dunderKeys_nodup W.keysNodup
    have hvalsnd : ∀ kv ∈ l, kv.2.Nodup := by
      intro kv hm
      obtain ⟨fk, vs⟩ := kv
      rcases flat_origin W ((hl _).mp hm) with ⟨_, hvd, _⟩ |
        ⟨k, ik, e, inner, _, _, hd2, hik, hvs, _⟩
      · exact W.valsNodup fk vs hvd
      · show vs.Nodup
        rw [hvs]
        exact ((W.innerWF k inner hd2).2 (ik, e) hik).2.2
    have hslot : ∀ p, corrB l p = true → ∀ kv ∈ p,
        (splitDunder kv.1 = [kv.1] ∧ kv.1 ∉ dunderKeys d) ∨
        (∃ o i, splitDunder kv.1 = [o, i] ∧ o ∈ dunderKeys d) := by
      intro p hc kv hm
      obtain ⟨vs, hvl, _⟩ := corrB_mem_values hc kv.1 kv.2
        (by rw [Prod.mk.eta]; exact hm)
      rcases flat_origin W ((hl _).mp hvl) with ⟨hsp, _, hndk⟩ |
        ⟨k, ik, e, inner, hsp, _, _, _, _, hkdk⟩
      · exact Or.inl ⟨hsp, hndk⟩
      · exact Or.inr ⟨k, ik, hsp, hkdk⟩
    have hok : ∀ p ∈ gridProduct l,
        unflattenOne (dunderKeys d) p = .ok (uPure (dunderKeys d) p) := by
      intro p hp
      have hc := (mem_gridProduct l p).mp hp
      exact unflattenOne_eq _ hdknd p (by rw [corrB_keys hc]; exact hlnd) (hslot p hc)
    have hrun : nested_parameter_grid d =
        .ok ((gridProduct l).map (uPure (dunderKeys d))) := by
      unfold nested_parameter_grid
      rw [hnest, hnosep, if_pos rfl, if_neg (by simp), hfl]
      exact exMapM_ok _ _ _ hok
    refine ⟨_, hrun, ?_, ?_, ?_⟩
    · intro c hsel
      rw [List.countP_map]
      have htotal : ∀ fk vs, (fk, vs) ∈ l → ∃ v, v ∈ vs ∧ pickOf c fk = some v :=
        fun fk vs hm => sel_pick_total W hsel fk vs ((hl _).mp hm)
      obtain ⟨p₀, hp₀c, hp₀a⟩ := exists_corr_choice c l htotal
      apply countP_eq_one_of_unique _ (gridProduct_nodup l hvalsnd) p₀
        ((mem_gridProduct l p₀).mpr hp₀c)
      · show dictEq c (uPure (dunderKeys d) p₀) = true
        exact dict_of_agrees W hl hsel (corrB_keys hp₀c)
          (by rw [corrB_keys hp₀c]; exact hlnd)
          (fun fk v hm => corrB_mem_values hp₀c fk v hm) hp₀a
      · intro y hy hqy
        have hcy := (mem_gridProduct l y).mp hy
        have hay := agrees_of_dict W hl hsel (by rw [corrB_keys hcy]; exact hlnd)
          (fun fk v hm => corrB_mem_values hcy fk v hm) hqy
        exact eq_of_agree hlnd hcy hp₀c hay hp₀a
    · intro c2 hc2
      obtain ⟨p, hp, hup⟩ := List.mem_map.mp hc2
      have hcp := (mem_gridProduct l p).mp hp
      have hpnd : (p.map Prod.fst).Nodup := by rw [corrB_keys hcp]; exact hlnd
      have hpval : ∀ fk v, (fk, v) ∈ p → ∃ vs, (fk, vs) ∈ l ∧ v ∈ vs :=
        fun fk v hm => corrB_mem_values hcp fk v hm
      have hkey_mem : ∀ fk vs2, (fk, vs2) ∈ flatList d →
          ∃ v, (fk, v) ∈ p ∧ v ∈ vs2 := by
        intro fk vs2 hfl2
        have hfkp : fk ∈ p.map Prod.fst := by
          rw [corrB_keys hcp]
          exact List.mem_map.mpr ⟨(fk, vs2), (hl _).mpr hfl2, rfl⟩
        obtain ⟨v, hv⟩ := exists_val_of_key_mem hfkp
        obtain ⟨vs₃, hvs₃l, hvvs₃⟩ := hpval fk v hv
        have hvseq : vs₃ = vs2 :=
          assoc_value_unique W.flatNodup ((hl _).mp hvs₃l) hfl2
        exact ⟨v, hv, hvseq ▸ hvvs₃⟩
      obtain ⟨c, hcsel, hcRt, hcRn⟩ := exists_sel (fun k v => (k, v) ∈ p)
        (fun k i v => (flatKey k i, v) ∈ p) d
        (by
          intro k vs hm
          obtain ⟨v, hvp, hvvs⟩ := hkey_mem k vs (mem_flatList.mpr (Or.inl hm))
          exact ⟨v, hvvs, hvp⟩)
        (by
          intro k inner hm ikv hik
          have hif := (W.innerWF k inner hm).2 ikv hik
          obtain ⟨vs, hvs⟩ := eq_vals_of_not_nest hif.1
          refine ⟨vs, hvs, ?_⟩
          have hfl2 : (flatKey k ikv.1, ikv.2.getVals) ∈ flatList d :=
            mem_flatList.mpr (Or.inr ⟨k, inner, ikv, hm, hik, rfl, rfl⟩)
          obtain ⟨v, hvp, hvvs⟩ := hkey_mem _ _ hfl2
          refine ⟨v, ?_, hvp⟩
          rw [hvs] at hvvs
          simpa [PEntry.getVals] using hvvs)
      have hagr := agrees_of_mem_rel W hl hpnd hpval hcsel hcRt hcRn
      refine ⟨c, hcsel, ?_⟩
      rw [← hup]
      exact dict_of_agrees W hl hcsel (corrB_keys hcp) hpnd hpval hagr
    · intro c2 hc2 k inner hd2
      obtain ⟨p, hp, hup⟩ := List.mem_map.mp hc2
      have hcp := (mem_gridProduct l p).mp hp
      have hkdk : k ∈ dunderKeys d := mem_dunderKeys.mpr ⟨PEntry.nest inner, hd2, rfl⟩
      refine ⟨innerPick k p, ?_, innerPick_keys_perm W hl hlnd hcp hd2⟩
      rw [← hup]
      exact uPure_lookup_dk hdknd p hkdk

/-- C3 witness: the amended theorem applied at the specification's own
examples `{"v1":[1,2], "v2":[1,2,3]}` (flat, 6 results) and
`{"v1":[1,2], "v2_nest":{"v2.1":[3,4]}}` (nested). -/
theorem C3_grid_characterisation_witness :
    ([(['v', '1'], PEntry.vals [(1 : Int), 2]),
      (['v', '2'], PEntry.vals [(1 : Int), 2, 3])].all
        (fun kv => !kv.2.isNest) = true) ∧
    ([(['v', '1'], PEntry.vals [(1 : Int), 2]),
      (['n'], PEntry.nest [(['v', '2'], PEntry.vals [(3 : Int), 4])])].any
        (fun kv => kv.2.isNest) = true) ∧
    (wfB [(['v', '1'], PEntry.vals [(1 : Int), 2]),
      (['n'], PEntry.nest [(['v', '2'], PEntry.vals [(3 : Int), 4])])] = true) ∧
    (∃ g, nested_parameter_grid
        [(['v', '1'], PEntry.vals [(1 : Int), 2]),
         (['v', '2'], PEntry.vals [(1 : Int), 2, 3])] = .ok g ∧
      g.length = ([(['v', '1'], PEntry.vals [(1 : Int), 2]),
        (['v', '2'], PEntry.vals [(1 : Int), 2, 3])].map
          (fun kv => kv.2.getVals.length)).prod) ∧
    (∃ g, nested_parameter_grid
        [(['v', '1'], PEntry.vals [(1 : Int), 2]),
         (['n'], PEntry.nest [(['v', '2'], PEntry.vals [(3 : Int), 4])])] = .ok g ∧
      (∀ c, selB [(['v', '1'], PEntry.vals [(1 : Int), 2]),
          (['n'], PEntry.nest [(['v', '2'], PEntry.vals [(3 : Int), 4])])] c = true →
        g.countP (fun c2 => dictEq c c2) = 1) ∧
      (∀ c2 ∈ g, ∃ c, selB [(['v', '1'], PEntry.vals [(1 : Int), 2]),
          (['n'], PEntry.nest [(['v', '2'], PEntry.vals [(3 : Int), 4])])] c = true ∧
        dictEq c c2 = true) ∧
      (∀ c2 ∈ g, ∀ k inner,
        (k, PEntry.nest inner) ∈ [(['v', '1'], PEntry.vals [(1 : Int), 2]),
          (['n'], PEntry.nest [(['v', '2'], PEntry.vals [(3 : Int), 4])])] →
        ∃ m, lookupA k c2 = some (CItem.nest m) ∧
          (m.map Prod.fst).Perm (inner.map Prod.fst))) :=
  ⟨by decide, by decide, by decide,
    C3_grid_characterisation.1 _ (by decide),
    C3_grid_characterisation.2 _ (by decide) (by decide)⟩

/-! ### C6 and C7: validation errors of `nested_parameter_grid` -/

/-- C6, counterexample: a configuration description with no nested mapping
whose only top-level key contains the reserved separator `__` does not
raise — the separator assertion sits inside the nested branch only, and
the plain Cartesian product is produced. -/
theorem C6_counterexample :
    nested_parameter_grid [(('a' :: '_' :: '_' :: 'b' :: []), PEntry.vals [(1 : Int)])] =
      .ok [[(('a' :: '_' :: '_' :: 'b' :: []), CItem.scalar (1 : Int))]] := by decide

/-- C6 (amended): for every configuration description that contains at
least one nested mapping, if some top-level key contains the reserved
separator token `__` then `nested_parameter_grid` raises the separator
assertion before any expansion occurs. -/
theorem C6_sep_assert {α : Type} (d : List (Str × PEntry α))
    (hnest : d.any (fun kv => kv.2.isNest) = true)
    (hsep : d.any (fun kv => hasDunder kv.1) = true) :
    nested_parameter_grid d = .error .assertSep := by
  unfold nested_parameter_grid
  rw [hnest, hsep]
  rfl

/-- C6 witness: the amended theorem applied at a concrete input. -/
theorem C6_sep_assert_witness :
    [(('a' :: '_' :: '_' :: 'b' :: []), PEntry.nest [(['c'], PEntry.vals [(1 : Int)])])].any
        (fun kv => kv.2.isNest) = true ∧
    [(('a' :: '_' :: '_' :: 'b' :: []), PEntry.nest [(['c'], PEntry.vals [(1 : Int)])])].any
        (fun kv => hasDunder kv.1) = true ∧
    nested_parameter_grid
        [(('a' :: '_' :: '_' :: 'b' :: []), PEntry.nest [(['c'], PEntry.vals [(1 : Int)])])] =
      .error .assertSep :=
  ⟨by decide, by decide, C6_sep_assert _ (by decide) (by decide)⟩

/-- C7, counterexample: a configuration with two levels of nesting whose
first top-level key contains the reserved separator raises the separator
assertion, not the depth error — so "raises a depth error" does not hold
for every two-level configuration. -/
theorem C7_counterexample :
    nested_parameter_grid
        [(('a' :: '_' :: '_' :: 'b' :: []), PEntry.vals [(1 : Int)]),
         (['c'], PEntry.nest [(['d'], PEntry.nest [(['e'], PEntry.vals [(1 : Int)])])])] =
      .error .assertSep := by decide

/-- C7 (amended): for every configuration description containing an inner
value that is itself a mapping, provided no top-level key contains the
reserved separator (otherwise the separator assertion fires first),
`nested_parameter_grid` raises the depth error and produces no output. -/
theorem C7_depth_error {α : Type} (d : List (Str × PEntry α))
    (hclean : d.all (fun kv => !hasDunder kv.1) = true)
    (hdeep : d.any (fun kv => deepB kv.2) = true) :
    nested_parameter_grid d = .error .depth := by
  have hnest : d.any (fun kv => kv.2.isNest) = true := by
    obtain ⟨kv, hmem, hd⟩ := List.any_eq_true.mp hdeep
    refine List.any_eq_true.mpr ⟨kv, hmem, ?_⟩
    match hkv : kv.2 with
    | PEntry.vals vs => rw [hkv] at hd; simp [deepB] at hd
    | PEntry.nest inner => rfl
  have hsep : d.any (fun kv => hasDunder kv.1) = false := by
    rw [List.any_eq_false]
    intro kv hm
    have := List.all_eq_true.mp hclean kv hm
    simpa using this
  unfold nested_parameter_grid
  rw [hnest, hsep]
  have hdeep' : ∃ kv ∈ d, deepB kv.2 = true := List.any_eq_true.mp hdeep
  rw [flattenLoop_error_of_deep d [] [] hdeep']
  rfl

/-- C7 witness: the amended theorem applied at a concrete input. -/
theorem C7_depth_error_witness :
    [(['c'], PEntry.nest [(['d'], PEntry.nest [(['e'], PEntry.vals [(1 : Int)])])])].all
        (fun kv => !hasDunder kv.1) = true ∧
    [(['c'], PEntry.nest [(['d'], PEntry.nest [(['e'], PEntry.vals [(1 : Int)])])])].any
        (fun kv => deepB kv.2) = true ∧
    nested_parameter_grid
        [(['c'], PEntry.nest [(['d'], PEntry.nest [(['e'], PEntry.vals [(1 : Int)])])])] =
      .error .depth :=
  ⟨by decide, by decide, C7_depth_error _ (by decide) (by decide)⟩

/-- C9: the reserved-separator validation inspects only top-level keys.
For a configuration whose single nested mapping has an inner key that
itself contains `__`, the flattening step succeeds (producing the
triple-part key `a__b__c`), but un-flattening splits that key into more
than two parts and raises the unhandled unpacking `ValueError` — not a
validation error. -/
theorem C9_inner_sep_unpack (v : Int) (vs : List Int) :
    flattenLoop [] [] [(['a'], PEntry.nest [(('b' :: '_' :: '_' :: 'c' :: []), PEntry.vals (v :: vs))])] =
      .ok ([(('a' :: '_' :: '_' :: 'b' :: '_' :: '_' :: 'c' :: []), v :: vs)], [['a']]) ∧
    nested_parameter_grid
        [(['a'], PEntry.nest [(('b' :: '_' :: '_' :: 'c' :: []), PEntry.vals (v :: vs))])] =
      .error .unpack := by
  constructor
  · rfl
  · rfl

/-! ## `sacredex/run.py` — run driver, duplicate guard, purge

The experiment runner is abstracted as a function returning `Except`
(`ex.run` either completes or raises); mongo collections are lists of
documents. -/

/-- Embedding of `_log_run_error`: logs the failing configuration with the
trace and returns the incremented error counter. -/
def _log_run_error {χ : Type} (_config : χ) (_error : Str) (counter : Nat) : Nat :=
  counter + 1

/-- The `for config in configuration_iterator` loop of
`run_over_configurations`.  On an exception the incremented counter
returned by `_log_run_error` is discarded, exactly as in the code
(`run.py` line 54), so `error_counter` is never reassigned.  The second
component is the trace of per-configuration outcomes. -/
def runLoop {χ : Type} (runner : χ → Except Str Unit) :
    Nat → List (Except Str Unit) → List χ → Nat × List (Except Str Unit)
  | counter, acc, [] => (counter, acc)
  | counter, acc, config :: rest =>
    match runner config with
    | .ok u => runLoop runner counter (acc ++ [.ok u]) rest
    | .error e =>
      let _ := _log_run_error config e counter
      runLoop runner counter (acc ++ [.error e]) rest

/-- Embedding of the loop of `run_over_configurations`: runs every
configuration, catching per-run exceptions, and returns the error count
printed by the final statement together with the outcome trace. -/
def run_over_configurations {χ : Type} (runner : χ → Except Str Unit)
    (configs : List χ) : Nat × List (Except Str Unit) :=
  runLoop runner 0 [] configs

theorem runLoop_spec {χ : Type} (runner : χ → Except Str Unit) :
    ∀ (configs : List χ) (counter : Nat) (acc : List (Except Str Unit)),
      runLoop runner counter acc configs = (counter, acc ++ configs.map runner) := by
  intro configs
  induction configs with
  | nil => intro c acc; simp [runLoop]
  | cons hd tl ih =>
    intro c acc
    cases hr : runner hd with
    | ok u => simp [runLoop, hr, ih]
    | error e => simp [runLoop, hr, ih]

/-- C1 (code bug): every configuration is attempted — a raised exception is
caught and does not abort the remaining iteration — but the error count
reported at the end is always `0`, because the incremented counter
returned by `_log_run_error` is discarded at the call site.  In
particular, for a two-configuration iterator whose first run raises, the
driver still runs the second configuration yet reports `0` errors where
the specification requires `1`. -/
theorem C1_error_count_never_reported :
    (∀ {χ : Type} (runner : χ → Except Str Unit) (configs : List χ),
      run_over_configurations runner configs = (0, configs.map runner)) ∧
    run_over_configurations
        (fun b : Bool => if b then Except.error ['e'] else Except.ok ()) [true, false] =
      (0, [Except.error ['e'], Except.ok ()]) := by
  constructor
  · intro χ runner configs
    simpa [run_over_configurations] using runLoop_spec runner configs 0 []
  · rfl

/-! ### The duplicate-run guard `_check_if_run` -/

/-- One equality expression of the duplicate-run query, over a dotted
document path `config.k` or `config.k.ik`. -/
inductive QExpr (α : Type) : Type
  | top (k : Str) (v : α)
  | inner (k ik : Str) (v : α)
  deriving DecidableEq

/-- The conjunction list built by `_check_if_run` from the configuration:
one expression per top-level scalar field, one per nested inner field. -/
def buildExprs {α : Type} (config : Cfg α) : List (QExpr α) :=
  config.flatMap fun kv =>
    match kv.2 with
    | .scalar v => [QExpr.top kv.1 v]
    | .nest m => m.map (fun ikv => QExpr.inner kv.1 ikv.1 ikv.2)

/-- MongoDB equality match of one dotted-path expression against the
stored config of a run document. -/
def docMatches {α : Type} [DecidableEq α] (doc : Cfg α) : QExpr α → Bool
  | .top k v => decide (lookupA k doc = some (CItem.scalar v))
  | .inner k ik v =>
    match lookupA k doc with
    | some (.nest m) => decide (lookupA ik m = some v)
    | _ => false

inductive MongoErr : Type
  | emptyAndClause
  deriving DecidableEq

/-- Embedding of `count_documents` on the query built from `exprs`.
MongoDB rejects an empty `$and` array ("$and/$or/$nor must be a nonempty
array"); otherwise the documents satisfying every expression are counted. -/
def count_documents {α : Type} [DecidableEq α] (store : List (Cfg α))
    (exprs : List (QExpr α)) : Except MongoErr Nat :=
  if exprs.isEmpty then .error .emptyAndClause
  else .ok (store.filter (fun doc => exprs.all (docMatches doc))).length

/-- Embedding of `_check_if_run` over a store of run documents (each
represented by its stored configuration).  Returns
`(has_run, warning emitted)`. -/
def _check_if_run {α : Type} [DecidableEq α] (store : List (Cfg α)) (config : Cfg α) :
    Except MongoErr (Bool × Bool) :=
  match count_documents store (buildExprs config) with
  | .error e => .error e
  | .ok count =>
    if count = 0 then .ok (false, false)
    else if count > 1 then .ok (true, true)
    else .ok (true, false)

/-- The specification's superset check: every top-level scalar field and
every nested inner field of `config` is present in the stored
configuration with an equal value. -/
def isSupersetOf {α : Type} [DecidableEq α] (doc config : Cfg α) : Bool :=
  config.all fun kv =>
    match kv.2 with
    | .scalar v => decide (lookupA kv.1 doc = some (CItem.scalar v))
    | .nest m => m.all fun ikv =>
      match lookupA kv.1 doc with
      | some (.nest dm) => decide (lookupA ikv.1 dm = some ikv.2)
      | _ => false

theorem all_map_docMatches {α : Type} [DecidableEq α] (doc : Cfg α) (k : Str) :
    ∀ m : List (Str × α),
      (m.map (fun ikv => QExpr.inner k ikv.1 ikv.2)).all (docMatches doc) =
        m.all (fun ikv =>
          match lookupA k doc with
          | some (CItem.nest dm) => decide (lookupA ikv.1 dm = some ikv.2)
          | _ => false) := by
  intro m
  induction m with
  | nil => rfl
  | cons hd tl ih =>
    simp only [List.map_cons, List.all_cons, ih]
    rfl

theorem all_docMatches_eq_superset {α : Type} [DecidableEq α] (doc : Cfg α) :
    ∀ config : Cfg α,
      (buildExprs config).all (docMatches doc) = isSupersetOf doc config := by
  intro config
  induction config with
  | nil => rfl
  | cons kv rest ih =>
    obtain ⟨k, it⟩ := kv
    match it with
    | CItem.scalar v =>
      simp only [buildExprs, List.flatMap_cons, List.all_append, List.all_cons,
        List.all_nil, Bool.and_true, isSupersetOf] at ih ⊢
      rw [ih]
      rfl
    | CItem.nest m =>
      simp only [buildExprs, List.flatMap_cons, List.all_append,
        isSupersetOf, List.all_cons] at ih ⊢
      rw [all_map_docMatches doc k m, ih]

/-- C5, counterexample: for the empty concrete configuration — which
matches zero stored runs — the guard does not return "not yet run": the
empty `$and` conjunction makes the existence check raise instead
(claim C10's behaviour), so the claim does not hold for *every* concrete
configuration. -/
theorem C5_counterexample :
    (([] : List (Cfg Int)).filter
      (fun doc => isSupersetOf doc ([] : Cfg Int))).length = 0 ∧
    _check_if_run ([] : List (Cfg Int)) ([] : Cfg Int) =
      .error .emptyAndClause :=
  ⟨rfl, rfl⟩

/-- C5 (amended): for every concrete configuration that yields at least
one field expression (in particular every nonempty configuration with a
scalar or nested inner field), the guard counts the stored runs whose
configuration is a superset of the given one, and returns "not yet run"
on zero matches, "already run" on exactly one, and "already run" plus a
warning on more than one. -/
theorem C5_duplicate_guard {α : Type} [DecidableEq α] (store : List (Cfg α))
    (config : Cfg α) (hne : buildExprs config ≠ []) :
    ((store.filter (fun doc => isSupersetOf doc config)).length = 0 →
      _check_if_run store config = .ok (false, false)) ∧
    ((store.filter (fun doc => isSupersetOf doc config)).length = 1 →
      _check_if_run store config = .ok (true, false)) ∧
    (1 < (store.filter (fun doc => isSupersetOf doc config)).length →
      _check_if_run store config = .ok (true, true)) := by
  have hfil : store.filter (fun doc => (buildExprs config).all (docMatches doc)) =
      store.filter (fun doc => isSupersetOf doc config) :=
    List.filter_congr (fun doc _ => all_docMatches_eq_superset doc config)
  have hcount : count_documents store (buildExprs config) =
      .ok (store.filter (fun doc => isSupersetOf doc config)).length := by
    rw [count_documents, if_neg (by simpa [List.isEmpty_iff] using hne), hfil]
  refine ⟨?_, ?_, ?_⟩
  · intro h0
    rw [_check_if_run, hcount]
    simp [h0]
  · intro h1
    rw [_check_if_run, hcount]
    simp [h1]
  · intro h2
    rw [_check_if_run, hcount]
    have : (store.filter (fun doc => isSupersetOf doc config)).length ≠ 0 := by omega
    simp [this, h2]

/-- C5 witness: the amended theorem applied to a one-field configuration
and a store holding exactly one matching (superset) document. -/
theorem C5_duplicate_guard_witness :
    buildExprs [(['k'], CItem.scalar (1 : Int))] ≠ [] ∧
    ([[(['k'], CItem.scalar (1 : Int)), (['x'], CItem.scalar (5 : Int))]].filter
      (fun doc => isSupersetOf doc [(['k'], CItem.scalar (1 : Int))])).length = 1 ∧
    _check_if_run [[(['k'], CItem.scalar (1 : Int)), (['x'], CItem.scalar (5 : Int))]]
      [(['k'], CItem.scalar (1 : Int))] = .ok (true, false) :=
  ⟨by decide, by decide,
    (C5_duplicate_guard _ _ (by decide)).2.1 (by decide)⟩

/-- C10: for the empty concrete configuration the guard builds the query
`{"$and": []}`; its empty conjunction list is not a valid MongoDB match
expression, so the existence check fails with an error instead of
returning "not yet run". -/
theorem C10_empty_config_error {α : Type} [DecidableEq α] (store : List (Cfg α)) :
    buildExprs ([] : Cfg α) = [] ∧
    _check_if_run store ([] : Cfg α) = .error .emptyAndClause :=
  ⟨rfl, rfl⟩

/-! ### `purge_incomplete_runs` -/

structure RunRec : Type where
  rid : Int
  status : Str
  deriving DecidableEq

structure MetricRec : Type where
  mid : Int
  deriving DecidableEq

/-- The two mongo collections held by the observer. -/
structure MongoObserver : Type where
  runs : List RunRec
  metrics : List MetricRec
  deriving DecidableEq

/-- Embedding of `delete_one` by `_id` on the runs collection: removes the
first matching document. -/
def deleteOneRun : List RunRec → Int → List RunRec
  | [], _ => []
  | r :: rest, i => if r.rid = i then rest else r :: deleteOneRun rest i

/-- Embedding of `delete_one` by `_id` on the metrics collection. -/
def deleteOneMetric : List MetricRec → Int → List MetricRec
  | [], _ => []
  | m :: rest, i => if m.mid = i then rest else m :: deleteOneMetric rest i

/-- Embedding of `_delete_run_id`: deletes the run document and the
metrics document with the given id. -/
def _delete_run_id (obs : MongoObserver) (run_id : Int) : MongoObserver :=
  ⟨deleteOneRun obs.runs run_id, deleteOneMetric obs.metrics run_id⟩

/-- The `$nor` filter of `purge_incomplete_runs`: status is neither
`COMPLETED` nor `RUNNING`. -/
def statusIncomplete (r : RunRec) : Bool :=
  !(decide (r.status = "COMPLETED".toList) || decide (r.status = "RUNNING".toList))

/-- Embedding of `purge_incomplete_runs`: query the ids of all runs whose
status is neither `COMPLETED` nor `RUNNING`, then delete each such run
and its metrics document. -/
def purge_incomplete_runs (obs : MongoObserver) : MongoObserver :=
  ((obs.runs.filter statusIncomplete).map RunRec.rid).foldl _delete_run_id obs

theorem deleteOneRun_eq_filter :
    ∀ (l : List RunRec) (i : Int), (l.map RunRec.rid).Nodup →
      deleteOneRun l i = l.filter (fun r => !(decide (r.rid = i))) := by
  intro l
  induction l with
  | nil => intro i _; rfl
  | cons r rest ih =>
    intro i hnd
    simp only [List.map_cons, List.nodup_cons] at hnd
    simp only [deleteOneRun, List.filter_cons]
    by_cases hrr : r.rid = i
    · rw [if_pos hrr, show (!decide (r.rid = i)) = false by simp [hrr]]
      simp only [Bool.false_eq_true, if_false]
      symm
      rw [List.filter_eq_self]
      intro a ha
      simp only [Bool.not_eq_true', decide_eq_false_iff_not]
      intro hc
      rw [← hrr] at hc
      exact hnd.1 (hc ▸ List.mem_map.mpr ⟨a, ha, rfl⟩)
    · rw [if_neg hrr, show (!decide (r.rid = i)) = true by simp [hrr], if_pos rfl]
      rw [ih i hnd.2]

theorem deleteOneMetric_eq_filter :
    ∀ (l : List MetricRec) (i : Int), (l.map MetricRec.mid).Nodup →
      deleteOneMetric l i = l.filter (fun m => !(decide (m.mid = i))) := by
  intro l
  induction l with
  | nil => intro i _; rfl
  | cons r rest ih =>
    intro i hnd
    simp only [List.map_cons, List.nodup_cons] at hnd
    simp only [deleteOneMetric, List.filter_cons]
    by_cases hrr : r.mid = i
    · rw [if_pos hrr, show (!decide (r.mid = i)) = false by simp [hrr]]
      simp only [Bool.false_eq_true, if_false]
      symm
      rw [List.filter_eq_self]
      intro a ha
      simp only [Bool.not_eq_true', decide_eq_false_iff_not]
      intro hc
      rw [← hrr] at hc
      exact hnd.1 (hc ▸ List.mem_map.mpr ⟨a, ha, rfl⟩)
    · rw [if_neg hrr, show (!decide (r.mid = i)) = true by simp [hrr], if_pos rfl]
      rw [ih i hnd.2]

theorem foldl_delete_spec :
    ∀ (ids : List Int) (obs : MongoObserver),
      (obs.runs.map RunRec.rid).Nodup → (obs.metrics.map MetricRec.mid).Nodup →
      ids.foldl _delete_run_id obs =
        ⟨obs.runs.filter (fun r => !(decide (r.rid ∈ ids))),
         obs.metrics.filter (fun m => !(decide (m.mid ∈ ids)))⟩ := by
  intro ids
  induction ids with
  | nil =>
    intro obs _ _
    simp [List.foldl]
  | cons i rest ih =>
    intro obs hr hm
    have hstep : _delete_run_id obs i =
        ⟨obs.runs.filter (fun r => !(decide (r.rid = i))),
         obs.metrics.filter (fun m => !(decide (m.mid = i)))⟩ := by
      rw [_delete_run_id, deleteOneRun_eq_filter obs.runs i hr,
        deleteOneMetric_eq_filter obs.metrics i hm]
    have hr2 : ((obs.runs.filter (fun r => !(decide (r.rid = i)))).map RunRec.rid).Nodup :=
      hr.sublist ((List.filter_sublist _).map RunRec.rid)
    have hm2 : ((obs.metrics.filter
        (fun m => !(decide (m.mid = i)))).map MetricRec.mid).Nodup :=
      hm.sublist ((List.filter_sublist _).map MetricRec.mid)
    show List.foldl _delete_run_id (_delete_run_id obs i) rest = _
    rw [hstep, ih _ hr2 hm2]
    simp only [List.filter_filter, MongoObserver.mk.injEq]
    constructor
    · apply List.filter_congr
      intro r _
      by_cases h1 : r.rid = i <;> by_cases h2 : r.rid ∈ rest <;>
        simp [List.mem_cons, h1, h2]
    · apply List.filter_congr
      intro m _
      by_cases h1 : m.mid = i <;> by_cases h2 : m.mid ∈ rest <;>
        simp [List.mem_cons, h1, h2]

/-- C8: the purge deletes exactly the run records whose status is neither
`COMPLETED` nor `RUNNING`, and for each such run id also deletes the
metrics record of that id; `COMPLETED` and `RUNNING` runs, and the metric
records of all other ids, are left unchanged.  (Ids are unique within a
mongo collection; the `Nodup` hypotheses encode that store invariant.) -/
theorem C8_purge_incomplete (obs : MongoObserver)
    (hr : (obs.runs.map RunRec.rid).Nodup)
    (hm : (obs.metrics.map MetricRec.mid).Nodup) :
    (purge_incomplete_runs obs).runs =
      obs.runs.filter (fun r =>
        decide (r.status = "COMPLETED".toList) ||
        decide (r.status = "RUNNING".toList)) ∧
    (purge_incomplete_runs obs).metrics =
      obs.metrics.filter (fun m =>
        !(decide (m.mid ∈ (obs.runs.filter statusIncomplete).map RunRec.rid))) := by
  rw [purge_incomplete_runs, foldl_delete_spec _ obs hr hm]
  refine ⟨?_, rfl⟩
  apply List.filter_congr
  intro r hrm
  have hcm : (r.rid ∈ (obs.runs.filter statusIncomplete).map RunRec.rid) ↔
      statusIncomplete r = true := by
    constructor
    · intro hmem
      obtain ⟨r2, hr2, hrid⟩ := List.mem_map.mp hmem
      have hr3 := List.mem_filter.mp hr2
      have hre : r2 = r := List.inj_on_of_nodup_map hr hr3.1 hrm hrid
      rw [← hre]
      exact hr3.2
    · intro hs
      exact List.mem_map.mpr ⟨r, List.mem_filter.mpr ⟨hrm, hs⟩, rfl⟩
  have hdec : decide (r.rid ∈ (obs.runs.filter statusIncomplete).map RunRec.rid) =
      statusIncomplete r := by
    cases hs : statusIncomplete r with
    | true => exact decide_eq_true (hcm.mpr hs)
    | false =>
      apply decide_eq_false
      intro hmem
      have h2 := hcm.mp hmem
      rw [hs] at h2
      cases h2
  rw [hdec]
  simp [statusIncomplete, Bool.not_not]

/-- C8 witness: the theorem applied to a store with one completed, one
failed and one running run, each with a metrics record of the same id:
the failed run and its metrics record are deleted, the rest are kept. -/
theorem C8_purge_incomplete_witness :
    (([⟨1, "COMPLETED".toList⟩, ⟨2, "FAILED".toList⟩,
       ⟨3, "RUNNING".toList⟩] : List RunRec).map RunRec.rid).Nodup ∧
    (([⟨1⟩, ⟨2⟩, ⟨3⟩] : List MetricRec).map MetricRec.mid).Nodup ∧
    (purge_incomplete_runs
        ⟨[⟨1, "COMPLETED".toList⟩, ⟨2, "FAILED".toList⟩, ⟨3, "RUNNING".toList⟩],
         [⟨1⟩, ⟨2⟩, ⟨3⟩]⟩).runs =
      ([⟨1, "COMPLETED".toList⟩, ⟨2, "FAILED".toList⟩,
        ⟨3, "RUNNING".toList⟩] : List RunRec).filter (fun r =>
          decide (r.status = "COMPLETED".toList) ||
          decide (r.status = "RUNNING".toList)) ∧
    (purge_incomplete_runs
        ⟨[⟨1, "COMPLETED".toList⟩, ⟨2, "FAILED".toList⟩, ⟨3, "RUNNING".toList⟩],
         [⟨1⟩, ⟨2⟩, ⟨3⟩]⟩).metrics =
      ([⟨1⟩, ⟨2⟩, ⟨3⟩] : List MetricRec).filter (fun m =>
        !(decide (m.mid ∈ ((([⟨1, "COMPLETED".toList⟩, ⟨2, "FAILED".toList⟩,
          ⟨3, "RUNNING".toList⟩] : List RunRec).filter
            statusIncomplete).map RunRec.rid)))) := by
  refine ⟨by decide, by decide, ?_, ?_⟩
  · exact (C8_purge_incomplete _ (by decide) (by decide)).1
  · exact (C8_purge_incomplete _ (by decide) (by decide)).2

/-! ## `sacredex/artifacts.py` — `_load_artifact` and `resolve_artifacts` -/

/-- The allowed artifact content types. -/
def CONTENT_TYPES : List Str := ["np.csv".toList, "pd.csv".toList, "pickle".toList]

/-- One artifact descriptor of a run record. -/
structure ArtifactInfo : Type where
  name : Str
  file_id : Str
  deriving DecidableEq

/-- Python exceptions escaping `_load_artifact`. -/
inductive PyErr : Type
  | nameError      -- NameError: name 'output' is not defined
  | assertionError -- the stored content type is not in CONTENT_TYPES
  deriving DecidableEq

/-- The external pieces `_load_artifact` interacts with: the filename of
the artifact dumped by `mdbh.get_artifact`, the stored content type of a
file id (`fs.files`), and the three deserializers
(`np.loadtxt` / `pd.read_csv` / `load_pickle`), each of which may raise. -/
structure ArtDb (V : Type) : Type where
  getArtifact : Int → Str → Str
  contentType : Str → Str
  loadNp : Str → Except Str V
  loadPd : Str → Except Str V
  loadPickle : Str → Except Str V

/-- Embedding of `_load_artifact`.  The deserializer dispatch sits in a
`try/except Exception as output:` block whose except branch logs the
caught exception.  Python 3 deletes the `except ... as output` binding
when the except block exits, so the `return output` after the block
raises `NameError` on the failure path: the caught error value is never
returned to the caller. -/
def _load_artifact {V : Type} (db : ArtDb V) (id : Int) (name : Str) (file_id : Str) :
    Except PyErr V :=
  let fname := db.getArtifact id name
  let content_type := db.contentType file_id
  if content_type ∈ CONTENT_TYPES then
    match
      (if content_type = "np.csv".toList then db.loadNp fname
       else if content_type = "pd.csv".toList then db.loadPd fname
       else db.loadPickle fname) with
    | .ok v => .ok v
    | .error _ => .error .nameError
  else .error .assertionError

/-- Embedding of `resolve_artifacts`: for every dataframe row, load every
artifact into a name-keyed dictionary; an exception escaping
`_load_artifact` aborts the whole pass. -/
def resolve_artifacts {V : Type} (db : ArtDb V)
    (frame : List (Int × List ArtifactInfo)) :
    Except PyErr (List (Int × List (Str × V))) :=
  exMapM (fun row =>
    (exMapM (fun info => (_load_artifact db row.1 info.name info.file_id).map
      (fun v => (info.name, v))) row.2).map (fun arts => (row.1, arts)))
    frame

/-- A concrete artifact database for the C2 run: every artifact is stored
as a pickle; deserializing the artifact named `a` raises `msg`, while
every other artifact loads to `w`. -/
def dbEx (msg : Str) (w : Int) : ArtDb Int where
  getArtifact := fun _ name => name
  contentType := fun _ => "pickle".toList
  loadNp := fun _ => .error msg
  loadPd := fun _ => .error msg
  loadPickle := fun fname => if fname = ['a'] then .error msg else .ok w

/-- C2 (code bug): a deserialization failure of a single artifact is
caught and logged, but the dictionary entry is never populated with the
error value and the remaining artifacts are not loaded: because Python 3
deletes the `except Exception as output:` binding at the end of the
except block, the `return output` raises `NameError`, which propagates
through `resolve_artifacts` and aborts the whole resolution pass.  For a
run with two pickle artifacts whose first deserializer raises, the second
artifact would load fine, yet `resolve_artifacts` raises `NameError` and
returns no dictionary at all. -/
theorem C2_resolve_aborts_on_failure (msg : Str) (w : Int) :
    _load_artifact (dbEx msg w) 7 ['a'] ['f'] = .error .nameError ∧
    (dbEx msg w).loadPickle ((dbEx msg w).getArtifact 7 ['b']) = .ok w ∧
    resolve_artifacts (dbEx msg w) [(7, [⟨['a'], ['f']⟩, ⟨['b'], ['g']⟩])] =
      .error .nameError := by
  refine ⟨rfl, rfl, rfl⟩

/-! ## `sacredex/parse.py` — `average_metrics_over_seed`

A dataframe row carries the `config.*` columns, the `metrics.*` columns
and the `id` column.  Metric values are embedded as rationals; the square
root taken by pandas `.std()` and Python float-to-string formatting are
not exactly representable over ℚ and enter as the parameters `sqrtF` and
`fmtF` of the pipeline. -/

structure Row (κ : Type) : Type where
  cfg : List (Str × κ)
  mtr : List (Str × ℚ)
  rid : Int
  deriving DecidableEq

/-- One cell of the aggregated output frame. -/
inductive Cell : Type
  | num (q : ℚ)
  | str (s : Str)
  | ids (l : List Int)
  deriving DecidableEq

/-- One row of the aggregated output frame, indexed by its group key. -/
structure OutRow (κ : Type) : Type where
  key : List (Str × κ)
  cells : List (Str × Cell)
  deriving DecidableEq

/-- The grouping key of a row: every configuration column except
`config.seed` (`config_cols` in the code). -/
def gKey {κ : Type} (r : Row κ) : List (Str × κ) :=
  r.cfg.filter (fun kv => decide (kv.1 ≠ "config.seed".toList))

/-- The distinct group keys.  (pandas sorts group keys; the model keeps
them in dedup order — the properties proved below are order-insensitive.) -/
def groupKeys {κ : Type} [DecidableEq κ] (frame : List (Row κ)) : List (List (Str × κ)) :=
  (frame.map gKey).dedup

/-- The rows of one group. -/
def groupRows {κ : Type} [DecidableEq κ] (frame : List (Row κ)) (k : List (Str × κ)) :
    List (Row κ) :=
  frame.filter (fun r => decide (gKey r = k))

/-- The values of one metric column over a list of rows. -/
def colVals {κ : Type} (rows : List (Row κ)) (m : Str) : List ℚ :=
  rows.filterMap (fun r => lookupA m r.mtr)

/-- Column mean, as pandas `.mean()`. -/
def qMean (l : List ℚ) : ℚ := l.sum / l.length

/-- Sample variance with `ddof = 1` (pandas `.std()` squared).  For a
single observation pandas yields NaN; the rational model yields 0 via
division by zero. -/
def sampleVar (l : List ℚ) : ℚ :=
  (l.map (fun x => (x - qMean l) ^ 2)).sum / ((l.length : ℚ) - 1)

/-- Round half to even (numpy/pandas rounding). -/
def roundHalfEven (x : ℚ) : ℤ :=
  let fl := ⌊x⌋
  let fr := x - fl
  if fr < 1 / 2 then fl
  else if fr > 1 / 2 then fl + 1
  else if fl % 2 = 0 then fl else fl + 1

/-- Embedding of pandas `.round(dp)`: round half to even at `dp` decimal
places. -/
def roundTo (dp : Nat) (x : ℚ) : ℚ := (roundHalfEven (x * 10 ^ dp) : ℚ) / 10 ^ dp

/-- One aggregated output row for group key `k`: the `.mean` block, then
the `.std` block (the column order produced by `pd.concat` plus the
renaming loop), then the `.latex_string` columns, then `run_ids`. -/
def aggRow {κ : Type} [DecidableEq κ] (sqrtF : ℚ → ℚ) (fmtF : ℚ → Str)
    (string_rounding : Nat) (string_scaling : ℚ)
    (frame : List (Row κ)) (mcols : List Str) (k : List (Str × κ)) : OutRow κ :=
  let grp := groupRows frame k
  ⟨k,
    mcols.map (fun m =>
      (m ++ ".mean".toList, Cell.num (qMean (colVals grp m)))) ++
    mcols.map (fun m =>
      (m ++ ".std".toList, Cell.num (sqrtF (sampleVar (colVals grp m))))) ++
    mcols.map (fun m =>
      (m ++ ".latex_string".toList, Cell.str
        (fmtF (roundTo string_rounding (string_scaling * qMean (colVals grp m))) ++
         " /pm ".toList ++
         fmtF (roundTo string_rounding
           (string_scaling * sqrtF (sampleVar (colVals grp m))))))) ++
    [("run_ids".toList, Cell.ids (grp.map Row.rid))]⟩

/-- Embedding of `average_metrics_over_seed`: group by every
configuration column except the seed, and emit one aggregated row per
group. -/
def average_metrics_over_seed {κ : Type} [DecidableEq κ] (sqrtF : ℚ → ℚ)
    (fmtF : ℚ → Str) (string_rounding : Nat) (string_scaling : ℚ)
    (frame : List (Row κ)) : List (OutRow κ) :=
  let mcols := (frame.head?.map (fun r => r.mtr.map Prod.fst)).getD []
  (groupKeys frame).map (aggRow sqrtF fmtF string_rounding string_scaling frame mcols)

/-- C4: `average_metrics_over_seed` groups the rows by every configuration
column except `config.seed` and produces exactly one output row per
distinct group key; that row carries, for every metric column, the
`{metric}.mean` cell holding the group mean, the `{metric}.std` cell
holding the square root of the group's sample variance (ddof = 1), the
`{metric}.latex_string` cell holding the scaled and rounded mean and std
joined by the fixed separator `" /pm "`, and a `run_ids` cell listing the
ids of all source rows of the group. -/
theorem C4_average_metrics {κ : Type} [DecidableEq κ] (sqrtF : ℚ → ℚ) (fmtF : ℚ → Str)
    (rnd : Nat) (scl : ℚ) (frame : List (Row κ)) (mcols : List Str)
    (hmc : (frame.head?.map (fun r => r.mtr.map Prod.fst)).getD [] = mcols) :
    (∀ k ∈ groupKeys frame,
      (average_metrics_over_seed sqrtF fmtF rnd scl frame).countP
        (fun r => decide (r.key = k)) = 1) ∧
    (∀ k ∈ groupKeys frame,
      ∃ r ∈ average_metrics_over_seed sqrtF fmtF rnd scl frame,
        r.key = k ∧
        (∀ m ∈ mcols,
          (m ++ ".mean".toList,
            Cell.num (qMean (colVals (groupRows frame k) m))) ∈ r.cells ∧
          (m ++ ".std".toList,
            Cell.num (sqrtF (sampleVar (colVals (groupRows frame k) m)))) ∈ r.cells ∧
          (m ++ ".latex_string".toList, Cell.str
            (fmtF (roundTo rnd (scl * qMean (colVals (groupRows frame k) m))) ++
             " /pm ".toList ++
             fmtF (roundTo rnd
               (scl * sqrtF (sampleVar (colVals (groupRows frame k) m)))))) ∈ r.cells) ∧
        ("run_ids".toList, Cell.ids ((groupRows frame k).map Row.rid)) ∈ r.cells) := by
  constructor
  · intro k hk
    rw [average_metrics_over_seed]
    rw [hmc, List.countP_map]
    apply countP_eq_one_of_unique _ (List.nodup_dedup _) k hk
    · show decide ((aggRow sqrtF fmtF rnd scl frame mcols k).key = k) = true
      exact decide_eq_true rfl
    · intro y _ hqy
      have h2 : (aggRow sqrtF fmtF rnd scl frame mcols y).key = k := by
        simpa using hqy
      exact h2
  · intro k hk
    rw [average_metrics_over_seed, hmc]
    refine ⟨aggRow sqrtF fmtF rnd scl frame mcols k, List.mem_map.mpr ⟨k, hk, rfl⟩,
      rfl, ?_, ?_⟩
    · intro m hm
      refine ⟨?_, ?_, ?_⟩
      · apply List.mem_append_left
        apply List.mem_append_left
        apply List.mem_append_left
        exact List.mem_map.mpr ⟨m, hm, rfl⟩
      · apply List.mem_append_left
        apply List.mem_append_left
        apply List.mem_append_right
        exact List.mem_map.mpr ⟨m, hm, rfl⟩
      · apply List.mem_append_left
        apply List.mem_append_right
        exact List.mem_map.mpr ⟨m, hm, rfl⟩
    · apply List.mem_append_right
      exact List.mem_singleton_self _

/-- Largest `k ≤ bound` with `k * k ≤ n` (structurally recursive integer
square root, so that it computes inside the kernel). -/
def natSqrtAux (n : Nat) : Nat → Nat
  | 0 => 0
  | k + 1 => if (k + 1) * (k + 1) ≤ n then k + 1 else natSqrtAux n k

/-- Exact square root on ℚ for perfect squares — the value IEEE sqrt
returns exactly at such inputs — used to instantiate the abstract `sqrtF`
parameter in the witness. -/
def qSqrt (x : ℚ) : ℚ :=
  (natSqrtAux x.num.toNat x.num.toNat : ℚ) / (natSqrtAux x.den x.den : ℚ)

/-- A concrete formatter instantiating the abstract `fmtF` parameter. -/
def fmtQ (q : ℚ) : Str := (toString q).toList

/-- Three rows identical except for `config.seed ∈ {1,2,3}`, with metric
values 10, 20, 30 and ids 101, 102, 103. -/
def frameEx : List (Row Int) :=
  [⟨[("config.lr".toList, 1), ("config.seed".toList, 1)],
    [("metrics.acc".toList, 10)], 101⟩,
   ⟨[("config.lr".toList, 1), ("config.seed".toList, 2)],
    [("metrics.acc".toList, 20)], 102⟩,
   ⟨[("config.lr".toList, 1), ("config.seed".toList, 3)],
    [("metrics.acc".toList, 30)], 103⟩]

/-- The single group key of `frameEx`. -/
def keyEx : List (Str × Int) := [("config.lr".toList, 1)]

/-- C4 witness: on three rows identical except `seed ∈ {1,2,3}` with
metric values `[10,20,30]`, the rows form one group whose mean is 20,
whose sample standard deviation is 10, and whose `run_ids` are the three
source ids; the theorem instantiated at this frame yields exactly one
aggregated row carrying those cells. -/
theorem C4_average_metrics_witness :
    ((frameEx.head?.map (fun r => r.mtr.map Prod.fst)).getD [] =
      ["metrics.acc".toList]) ∧
    keyEx ∈ groupKeys frameEx ∧
    colVals (groupRows frameEx keyEx) "metrics.acc".toList = [10, 20, 30] ∧
    qMean [10, 20, 30] = 20 ∧
    sampleVar [10, 20, 30] = 100 ∧
    qSqrt 100 = 10 ∧
    (groupRows frameEx keyEx).map Row.rid = [101, 102, 103] ∧
    (∀ k ∈ groupKeys frameEx,
      (average_metrics_over_seed qSqrt fmtQ 3 1 frameEx).countP
        (fun r => decide (r.key = k)) = 1) ∧
    (∀ k ∈ groupKeys frameEx,
      ∃ r ∈ average_metrics_over_seed qSqrt fmtQ 3 1 frameEx,
        r.key = k ∧
        (∀ m ∈ ["metrics.acc".toList],
          (m ++ ".mean".toList,
            Cell.num (qMean (colVals (groupRows frameEx k) m))) ∈ r.cells ∧
          (m ++ ".std".toList,
            Cell.num (qSqrt (sampleVar (colVals (groupRows frameEx k) m)))) ∈ r.cells ∧
          (m ++ ".latex_string".toList, Cell.str
            (fmtQ (roundTo 3 (1 * qMean (colVals (groupRows frameEx k) m))) ++
             " /pm ".toList ++
             fmtQ (roundTo 3
               (1 * qSqrt (sampleVar (colVals (groupRows frameEx k) m)))))) ∈ r.cells) ∧
        ("run_ids".toList, Cell.ids ((groupRows frameEx k).map Row.rid)) ∈ r.cells) :=
  ⟨rfl, by decide, rfl,
    by norm_num [qMean, List.sum_cons, List.sum_nil],
    by norm_num [sampleVar, qMean, List.sum_cons, List.sum_nil],
    by
      have hs1 : natSqrtAux (Int.toNat 100) (Int.toNat 100) = 10 := by decide
      have hs2 : natSqrtAux 1 1 = 1 := by decide
      norm_num [qSqrt, hs1, hs2],
    rfl,
    (C4_average_metrics qSqrt fmtQ 3 1 frameEx ["metrics.acc".toList] rfl).1,
    (C4_average_metrics qSqrt fmtQ 3 1 frameEx ["metrics.acc".toList] rfl).2⟩

end Sacredex
